import Mathlib

/-!
# serfix: repair of the declared lengths of serialized string fields

A verification development for `serfix.go`.  A Go `string` is a sequence of
bytes; it is embedded as a list of byte values.  The three compiled patterns
`lexer`, `re` and `esc` are embedded as syntax trees, interpreted by a
backtracking matcher that enumerates the candidate matches in the priority
order of Go's `regexp` package (leftmost-first: an alternation prefers its left
branch, a greedy repetition prefers to take more, a lazy one to take less).

The matcher reads the text the way `regexp` does: a literal or a digit class
takes one ASCII byte, while `.` and the search for the start of a match advance
by one UTF-8 sequence (of one to four bytes, or one byte where the text is not
well-formed UTF-8).
-/

namespace Serfix

/-- A Go string: its bytes, in order. -/
abbrev Str := List Nat

/-- The bytes of an ASCII text. -/
def ascii (s : String) : Str := s.toList.map Char.toNat

/-! ## The regular expressions -/

/-- A class of single ASCII bytes. -/
inductive Cls where
  /-- A literal byte. -/
  | byte (b : Nat)
  /-- The class `\d`: an ASCII decimal digit. -/
  | digit
  deriving DecidableEq

/-- Whether the class accepts the byte. -/
def Cls.accepts : Cls → Nat → Bool
  | .byte b, c => c == b
  | .digit, c => decide (48 ≤ c) && decide (c ≤ 57)

/-- The fragment of the pattern syntax that `serfix.go` uses. -/
inductive Regex where
  /-- The empty expression. -/
  | empty
  /-- One byte of a class. -/
  | cls (k : Cls)
  /-- Concatenation `ab`. -/
  | cat (a b : Regex)
  /-- Alternation `a|b`. -/
  | alt (a b : Regex)
  /-- Greedy option `a?`. -/
  | opt (a : Regex)
  /-- Greedy repetition `k+` of a one-byte class. -/
  | plus (k : Cls)
  /-- Lazy repetition `.*?` of any character but the newline. -/
  | lazyAny
  /-- Capturing group number `i`. -/
  | group (i : Nat) (a : Regex)

/-- The text captured by each group; a group that has not taken part holds the empty text. -/
abbrev Caps := Nat → Str

/-- No group has captured anything. -/
def noCaps : Caps := fun _ => []

/-- Record the text of group `i`. -/
def setCap (caps : Caps) (i : Nat) (m : Str) : Caps := fun j => if j = i then m else caps j

/-- The ways `k*` can consume a prefix of the input, longest first: (consumed, rest). -/
def starGreedy (k : Cls) : Str → List (Str × Str)
  | [] => [([], [])]
  | c :: cs =>
    if k.accepts c then
      (starGreedy k cs).map (fun p => (c :: p.1, p.2)) ++ [([], c :: cs)]
    else [([], c :: cs)]

/-- From the first byte of a UTF-8 sequence: the number of bytes of the sequence and the
lowest and highest value allowed for its second byte (the tables `first` and `acceptRanges`
of Go's `unicode/utf8`); the size is 1 for an ASCII byte and for a byte that cannot begin a
sequence. -/
def utf8Head (x : Nat) : Nat × Nat × Nat :=
  if x < 0xC2 then (1, 0, 0)
  else if x < 0xE0 then (2, 0x80, 0xBF)
  else if x = 0xE0 then (3, 0xA0, 0xBF)
  else if x = 0xED then (3, 0x80, 0x9F)
  else if x < 0xF0 then (3, 0x80, 0xBF)
  else if x = 0xF0 then (4, 0x90, 0xBF)
  else if x < 0xF4 then (4, 0x80, 0xBF)
  else if x = 0xF4 then (4, 0x80, 0x8F)
  else (1, 0, 0)

/-- Whether the byte is a continuation byte `10xxxxxx` of a multi-byte UTF-8 character. -/
def isContinuation (b : Nat) : Bool := decide (128 ≤ b) && decide (b < 192)

/-- The number of bytes of the first character of a text, the width that
`utf8.DecodeRuneInString` returns: 1 for an ASCII byte and for a byte that does not begin a
well-formed sequence. -/
def runeLen : Str → Nat
  | [] => 0
  | x :: rest =>
    if (utf8Head x).1 = 1 then 1
    else if rest.length + 1 < (utf8Head x).1 then 1
    else if rest.getD 0 0 < (utf8Head x).2.1 ∨ (utf8Head x).2.2 < rest.getD 0 0 then 1
    else if (utf8Head x).1 ≤ 2 then 2
    else if isContinuation (rest.getD 1 0) = false then 1
    else if (utf8Head x).1 ≤ 3 then 3
    else if isContinuation (rest.getD 2 0) = false then 1
    else 4

/-- The ways `.*?` can consume a prefix of the input, shortest first: (consumed, rest).
It stops at a newline and advances by whole characters: `pending` is the number of bytes
of the current character that are still to be taken. -/
def lazyChars : Nat → Str → List (Str × Str)
  | _, [] => [([], [])]
  | 0, c :: cs =>
    ([], c :: cs) ::
      (if c != 10 then
        (lazyChars (runeLen (c :: cs) - 1) cs).map (fun p => (c :: p.1, p.2))
      else [])
  | pending + 1, c :: cs => (lazyChars pending cs).map (fun p => (c :: p.1, p.2))

/-- All the ways the expression matches a prefix of the input, in the order a backtracking
matcher tries them: (text matched, captures, rest of the input). -/
def Regex.run : Regex → Caps → Str → List (Str × Caps × Str)
  | .empty, caps, s => [([], caps, s)]
  | .cls _, _, [] => []
  | .cls k, caps, c :: cs => if k.accepts c then [([c], caps, cs)] else []
  | .cat a b, caps, s =>
    (a.run caps s).flatMap fun x =>
      (b.run x.2.1 x.2.2).map fun y => (x.1 ++ y.1, y.2.1, y.2.2)
  | .alt a b, caps, s => a.run caps s ++ b.run caps s
  | .opt a, caps, s => a.run caps s ++ [([], caps, s)]
  | .plus _, _, [] => []
  | .plus k, caps, c :: cs =>
    if k.accepts c then (starGreedy k cs).map (fun p => (c :: p.1, caps, p.2)) else []
  | .lazyAny, caps, s => (lazyChars 0 s).map (fun p => (p.1, caps, p.2))
  | .group i a, caps, s => (a.run caps s).map fun x => (x.1, setCap x.2.1 i x.1, x.2.2)

/-- The preferred match that starts at the first byte of the input, if there is one. -/
def Regex.matchAt (r : Regex) (s : Str) : Option (Str × Caps × Str) :=
  (r.run noCaps s).head?

/-- The search for the leftmost match, which tries the start of every character in turn:
`pending` is the number of bytes of the current character that are still to be skipped.
The result is (text before the match, the match, its captures, text after it). -/
def Regex.findFrom (r : Regex) : Nat → Str → Option (Str × Str × Caps × Str)
  | _, [] => (r.matchAt []).map fun x => ([], x.1, x.2.1, x.2.2)
  | 0, c :: cs =>
    match r.matchAt (c :: cs) with
    | some x => some ([], x.1, x.2.1, x.2.2)
    | none => (r.findFrom (runeLen (c :: cs) - 1) cs).map fun y => (c :: y.1, y.2)
  | pending + 1, c :: cs => (r.findFrom pending cs).map fun y => (c :: y.1, y.2)

/-- The leftmost match: (text before it, the match, its captures, text after it). -/
def Regex.find (r : Regex) (s : Str) : Option (Str × Str × Caps × Str) := r.findFrom 0 s

/-- The number of capturing groups of the expression (`NumSubexp`). -/
def Regex.numGroups : Regex → Nat
  | .empty => 0
  | .cls _ => 0
  | .cat a b => a.numGroups + b.numGroups
  | .alt a b => a.numGroups + b.numGroups
  | .opt a => a.numGroups
  | .plus _ => 0
  | .lazyAny => 0
  | .group _ a => a.numGroups + 1

/-- The method `FindStringSubmatch`: the leftmost match followed by the text of each group,
or the empty (nil) slice when there is no match. -/
def FindStringSubmatch (r : Regex) (s : Str) : List Str :=
  match r.find s with
  | none => []
  | some (_, m, caps, _) => m :: (List.range r.numGroups).map (fun i => caps (i + 1))

/-- The search loop behind the `FindAll` methods: each further match is looked for after
the end of the one before.  The result lists every match with the text that precedes it
since the previous match, and gives the text left after the last match.  The patterns it
is used with never match the empty text. -/
def findAllLoop (r : Regex) : Nat → Str → List (Str × Str) × Str
  | 0, s => ([], s)
  | n + 1, s =>
    match r.find s with
    | none => ([], s)
    | some (before, m, _, rest) =>
      ((before, m) :: (findAllLoop r n rest).1, (findAllLoop r n rest).2)

/-- The method `FindAllString` with no bound on the number of matches (`n = -1`). -/
def FindAllString (r : Regex) (s : Str) : List Str :=
  (findAllLoop r s.length s).1.map (fun x => x.2)

/-- A concatenation of several expressions. -/
def Regex.seq : List Regex → Regex
  | [] => .empty
  | [a] => a
  | a :: b :: rest => .cat a (Regex.seq (b :: rest))

/-- An alternation of one or more expressions, the first preferred. -/
def Regex.alts (a : Regex) : List Regex → Regex
  | [] => a
  | b :: rest => .alt a (Regex.alts b rest)

/-- A literal byte. -/
def lit (b : Nat) : Regex := .cls (.byte b)

/-- The locator pattern, `s:\d+:\\?\".*?\\?\";` in the source. -/
def lexer : Regex :=
  Regex.seq [lit 115, lit 58, .plus .digit, lit 58, .opt (lit 92), lit 34,
    .lazyAny, .opt (lit 92), lit 34, lit 59]

/-- The decomposition pattern, `(s:)(\d+)(:\\?\")(.*?)(\\?\";)` in the source. -/
def re : Regex :=
  Regex.seq [
    .group 1 (Regex.seq [lit 115, lit 58]),
    .group 2 (.plus .digit),
    .group 3 (Regex.seq [lit 58, .opt (lit 92), lit 34]),
    .group 4 (.lazyAny),
    .group 5 (Regex.seq [.opt (lit 92), lit 34, lit 59])]

/-- The escape-token pattern,
`(\\"|\\'|\\\\|\\a|\\b|\\f|\\n|\\r|\\s|\\t|\\v|\\0)` in the source: one group of twelve
alternatives, each a backslash followed by one of `" ' \ a b f n r s t v 0`. -/
def esc : Regex :=
  .group 1 (Regex.alts (Regex.seq [lit 92, lit 34]) [
    Regex.seq [lit 92, lit 39], Regex.seq [lit 92, lit 92],
    Regex.seq [lit 92, lit 97], Regex.seq [lit 92, lit 98], Regex.seq [lit 92, lit 102],
    Regex.seq [lit 92, lit 110], Regex.seq [lit 92, lit 114], Regex.seq [lit 92, lit 115],
    Regex.seq [lit 92, lit 116], Regex.seq [lit 92, lit 118], Regex.seq [lit 92, lit 48]])

/-! ## Formatting of the length -/

/-- The decimal digits of a number, most significant first, prepended to `acc`. -/
def decimalAux : Nat → Nat → Str → Str
  | 0, _, acc => acc
  | fuel + 1, n, acc =>
    if n < 10 then (48 + n) :: acc
    else decimalAux fuel (n / 10) ((48 + n % 10) :: acc)

/-- The decimal rendering of a natural number. -/
def decimal (n : Nat) : Str := decimalAux (n + 1) n []

/-- The verb `%d` of `fmt.Sprintf` applied to an `int`: a minus sign for a negative value,
then the decimal digits of the magnitude. -/
def fmtInt (i : Int) : Str :=
  if i < 0 then 45 :: decimal i.natAbs else decimal i.toNat

/-! ## The program -/

/-- The constant `readBuffer` of the source: the size of the read buffer, 16 MiB. -/
def readBuffer : Nat := 2 * 2 * 2 * 2 * 1024 * 1024

/-- The function `Replace` of the source.  Indexing `parts` out of range is a run-time
panic, rendered as `none`. -/
def Replace («matches» : Str) : Option Str := do
  let parts := FindStringSubmatch re «matches»
  let p4 ← parts[4]?
  let stringLength : Int := (p4.length : Int) - ((FindAllString esc p4).length : Int)
  let p1 ← parts[1]?
  let p3 ← parts[3]?
  let p5 ← parts[5]?
  pure (p1 ++ fmtInt stringLength ++ p3 ++ p4 ++ p5)

/-- The loop of `ReplaceAllStringFunc`: the text before each match is copied, the match is
replaced by what `repl` returns for it, and the search goes on after the match in the
original text.  It needs one unit of fuel for each match. -/
def replaceLoop (r : Regex) (repl : Str → Option Str) : Nat → Str → Option Str
  | fuel, src =>
    match r.find src with
    | none => some src
    | some (before, m, _, after) =>
      match fuel with
      | 0 => none
      | fuel + 1 => do
        let out ← repl m
        let tail ← replaceLoop r repl fuel after
        pure (before ++ out ++ tail)

/-- The method `ReplaceAllStringFunc`. -/
def ReplaceAllStringFunc (r : Regex) (src : Str) (repl : Str → Option Str) : Option Str :=
  replaceLoop r repl src.length src

/-- The per-line operation, `lexer.ReplaceAllStringFunc(line, Replace)` in the source. -/
def FixLine (line : Str) : Option Str := ReplaceAllStringFunc lexer line Replace

/-- Reading with `bufio.Reader.ReadString(delim)`: the bytes up to and including the first
delimiter, or, when none is left, all the remaining bytes together with the error `io.EOF`.
The result is (line, whether the error is `io.EOF`, what stays unread). -/
def ReadString (delim : Nat) : Str → Str × Bool × Str
  | [] => ([], true, [])
  | c :: cs =>
    if c = delim then ([c], false, cs)
    else
      let x := ReadString delim cs
      (c :: x.1, x.2.1, x.2.2)

/-- The loop of `processLines`: `input` is what is still unread of the input file and
`written` what has been written to the temporary file.  Reading and writing do not fail;
the result is the final content of the temporary file, `none` for a panic in `FixLine`
or when the fuel runs out. -/
def processLinesLoop : Nat → Str → Str → Option Str
  | 0, _, _ => none
  | fuel + 1, input, written =>
    let x := ReadString 10 input
    if x.2.1 then some written
    else
      match FixLine x.1 with
      | none => none
      | some fixed => processLinesLoop fuel x.2.2 (written ++ fixed)

/-- The function `processLines` of the source, as the text it writes for a given input. -/
def processLines (input : Str) : Option Str := processLinesLoop (input.length + 1) input []

/-- Reading with `bufio.Reader.ReadLine` through a buffer of `size` bytes.  The result is
(line, isPrefix, whether the error is `io.EOF`, what stays unread): at the end of the input
nothing is returned with `io.EOF`; when no newline is found among the next `size` bytes the
buffer is returned with `isPrefix` set; otherwise the line is returned without its newline
(and without a carriage return before it), or, when the input ends before a newline, all
the remaining bytes, without error. -/
def ReadLine (size : Nat) (input : Str) : Str × Bool × Bool × Str :=
  if input = [] then ([], false, true, [])
  else if size ≤ (input.takeWhile fun c => c != 10).length then
    (input.take size, true, false, input.drop size)
  else
    match input.dropWhile fun c => c != 10 with
    | [] => (input, false, false, [])
    | _ :: rest =>
      if (input.takeWhile fun c => c != 10).getLast? = some 13 then
        ((input.takeWhile fun c => c != 10).dropLast, false, false, rest)
      else (input.takeWhile fun c => c != 10, false, false, rest)

/-- The text of the error that `processStdin` prints for a line longer than the buffer. -/
def bufferTooSmall : Str := ascii "serfix: buffer size too small"

/-- The loop of `processStdin`: `input` is what is still unread of the standard input and
`printed` what has been printed, every `fmt.Println` adding a newline.  Reading does not
fail except by `io.EOF`; the result is all that is printed, `none` for a panic in
`FixLine` or when the fuel runs out. -/
def processStdinLoop : Nat → Str → Str → Option Str
  | 0, _, _ => none
  | fuel + 1, input, printed =>
    let x := ReadLine readBuffer input
    if x.2.1 then some (printed ++ bufferTooSmall ++ [10])
    else if x.2.2.1 then some printed
    else
      match FixLine x.1 with
      | none => none
      | some fixed => processStdinLoop fuel x.2.2.2 (printed ++ fixed ++ [10])

/-- The function `processStdin` of the source, as the text it prints for a given input. -/
def processStdin (input : Str) : Option Str := processStdinLoop (input.length + 1) input []

/-! ## Notions used in the statements -/

/-- Whether the byte is an ASCII decimal digit. -/
def isDigit (c : Nat) : Bool := Cls.digit.accepts c

/-- Whether the byte is one of the twelve designators of an escape token:
`" ' \ a b f n r s t v 0`. -/
def isEscapeDesignator (c : Nat) : Bool :=
  c == 34 || c == 39 || c == 92 || c == 97 || c == 98 || c == 102 ||
    c == 110 || c == 114 || c == 115 || c == 116 || c == 118 || c == 48

/-- The number of escape tokens that a single left-to-right scan finds: a backslash followed
by a designator counts once and the scan goes on after the two bytes; any other byte is
skipped. -/
def countEscapes : Str → Nat
  | [] => 0
  | [_] => 0
  | a :: c :: rest =>
    if a = 92 ∧ isEscapeDesignator c = true then 1 + countEscapes rest
    else countEscapes (c :: rest)

/-- The number that a sequence of decimal digits denotes. -/
def decimalValue (ds : Str) : Nat := ds.foldl (fun acc c => 10 * acc + (c - 48)) 0

/-- The number of characters of a UTF-8 text: every byte that is not a continuation byte
begins one character. -/
def charCount (s : Str) : Nat := (s.filter fun b => !isContinuation b).length

/-- The number of continuation bytes of a text: what its characters of several bytes take
beyond one byte each. -/
def continuationCount (s : Str) : Nat := (s.filter isContinuation).length

/-- The example field of the specification, `s:99:\"hi\\nthere\";` (20 bytes). -/
def sampleField : Str := ascii "s:99:\\\"hi\\\\nthere\\\";"

/-- The example field once fixed, `s:9:\"hi\\nthere\";`. -/
def sampleFixed : Str := ascii "s:9:\\\"hi\\\\nthere\\\";"

/-- A line that holds the example field between two other texts. -/
def sampleLine : Str := ascii "a:1:\x7b" ++ sampleField ++ ascii "\x7d\n"

/-- The field `s:9:"é";`, whose payload is the one character `é`, two bytes in UTF-8. -/
def accentField : Str := [115, 58, 57, 58, 34, 195, 169, 34, 59]

/-! ## A direct description of the fields the patterns match -/

/-- The closing part `\\?\";` at the start of the input: (closing, rest). -/
def closingAt : Str → Option (Str × Str)
  | 92 :: 34 :: 59 :: r => some ([92, 34, 59], r)
  | 34 :: 59 :: r => some ([34, 59], r)
  | _ => none

/-- The lazy scan for the first closing part, over bytes other than the newline:
(payload, closing, rest). -/
def scanBody : Str → Option (Str × Str × Str)
  | [] => none
  | x :: xs =>
    match closingAt (x :: xs) with
    | some (c, r) => some ([], c, r)
    | none => if x = 10 then none else (scanBody xs).map fun y => (x :: y.1, y.2)

/-- The opening part that follows the digits: (opening, rest). -/
def openingAt : Str → Option (Str × Str)
  | 58 :: 92 :: 34 :: r => some ([58, 92, 34], r)
  | 58 :: 34 :: r => some ([58, 34], r)
  | _ => none

/-- The marker, the digits and the opening part at the start of the input:
(digits, opening, rest). -/
def headerAt : Str → Option (Str × Str × Str)
  | 115 :: 58 :: s =>
    if s.takeWhile isDigit = [] then none
    else (openingAt (s.dropWhile isDigit)).map fun y => (s.takeWhile isDigit, y.1, y.2)
  | _ => none

/-- A field starting at the first byte of the input:
(digits, opening, payload, closing, rest). -/
def fieldAt (s : Str) : Option (Str × Str × Str × Str × Str) :=
  match headerAt s with
  | none => none
  | some (ds, op, r) => (scanBody r).map fun y => (ds, op, y.1, y.2.1, y.2.2)

/-- The closing part of both patterns. -/
def closingRe : Regex := Regex.seq [.opt (lit 92), lit 34, lit 59]

/-- The opening part of both patterns. -/
def openingRe : Regex := Regex.seq [lit 58, .opt (lit 92), lit 34]

/-- The part of `lexer` from the lazy repetition on. -/
def lexBody : Regex := Regex.seq [.lazyAny, .opt (lit 92), lit 34, lit 59]

/-- The part of `re` from the payload group on. -/
def reBody : Regex := Regex.seq [.group 4 (.lazyAny), .group 5 closingRe]

/-- The text of a field: marker, digits, opening, payload and closing. -/
def fieldText (ds op p cl : Str) : Str := [115, 58] ++ ds ++ op ++ p ++ cl

/-- The captures of a decomposed field. -/
def fieldCaps (caps : Caps) (ds op p cl : Str) : Caps :=
  setCap (setCap (setCap (setCap (setCap caps 1 [115, 58]) 2 ds) 3 op) 4 p) 5 cl

/-- The text that replaces a field with opening `op`, payload `p` and closing `cl`. -/
def fixField (op p cl : Str) : Str :=
  fieldText (decimal (p.length - countEscapes p)) op p cl

/-- The four variable parts of a field as the patterns accept them: a non-empty run of
digits, one of the two openings, and a payload that the lazy scan ends at the closing. -/
def IsField (ds op p cl : Str) : Prop :=
  ds ≠ [] ∧ (∀ c ∈ ds, isDigit c = true) ∧ (op = [58, 34] ∨ op = [58, 92, 34]) ∧
    scanBody (p ++ cl) = some (p, cl, [])

/-- The text `FixLine` returns. -/
def fix (s : Str) : Str := (FixLine s).getD s

/-! ## The matcher on the patterns of the program -/

theorem run_lit (b : Nat) (caps : Caps) (s : Str) :
    (lit b).run caps s =
      match s with
      | [] => []
      | c :: cs => if c = b then [([c], caps, cs)] else [] := by
  cases s with
  | nil => simp [lit, Regex.run]
  | cons c cs => simp [lit, Regex.run, Cls.accepts]

theorem run_lit_cat (b : Nat) (R : Regex) (caps : Caps) (s : Str) :
    (Regex.cat (lit b) R).run caps s =
      match s with
      | [] => []
      | c :: cs =>
        if c = b then (R.run caps cs).map (fun y => (c :: y.1, y.2.1, y.2.2)) else [] := by
  cases s with
  | nil => simp [lit, Regex.run]
  | cons c cs =>
    by_cases h : c = b
    · simp [lit, Regex.run, Cls.accepts, h]
    · simp [lit, Regex.run, Cls.accepts, h]

theorem run_closingRe (caps : Caps) (s : Str) :
    closingRe.run caps s =
      match closingAt s with
      | some (c, r) => [(c, caps, r)]
      | none => [] := by
  unfold closingRe Regex.seq Regex.seq Regex.seq
  rw [Regex.run]
  simp only [Regex.run, run_lit_cat, run_lit]
  rcases s with _ | ⟨a, _ | ⟨b, _ | ⟨c, r⟩⟩⟩
  · simp [closingAt]
  · by_cases h1 : a = 92 <;> by_cases h2 : a = 34 <;> simp [closingAt, h1, h2]
  · by_cases h1 : a = 92 <;> by_cases h2 : a = 34 <;> by_cases h3 : b = 34 <;>
      by_cases h4 : b = 59 <;> simp [closingAt, h1, h2, h3, h4]
  · by_cases h1 : a = 92 <;> by_cases h2 : a = 34 <;> by_cases h3 : b = 34 <;>
      by_cases h4 : b = 59 <;> by_cases h5 : c = 59 <;> simp [closingAt, h1, h2, h3, h4, h5]


theorem isDigit_iff (c : Nat) : isDigit c = true ↔ 48 ≤ c ∧ c ≤ 57 := by
  simp [isDigit, Cls.accepts]

theorem digit_accepts (c : Nat) : Cls.digit.accepts c = isDigit c := rfl

/-- Greedy digits followed by something that refuses a digit: only the longest run goes on. -/
theorem starGreedy_flatMap {α : Type} (f : Str × Str → List α)
    (hf : ∀ p c r, isDigit c = true → f (p, c :: r) = []) (s : Str) :
    (starGreedy .digit s).flatMap f = f (s.takeWhile isDigit, s.dropWhile isDigit) := by
  induction s generalizing f with
  | nil => simp [starGreedy]
  | cons c cs ih =>
    by_cases hc : isDigit c = true
    · have h1 := ih (fun p => f (c :: p.1, p.2)) (fun p d r hd => hf (c :: p) d r hd)
      simp [starGreedy, digit_accepts, hc, List.flatMap_map, h1, hf [] c cs hc]
    · simp [starGreedy, digit_accepts, hc]

theorem utf8Head_spec (x : Nat) :
    (utf8Head x).1 = 1 ∨
      (128 ≤ x ∧ 128 ≤ (utf8Head x).2.1 ∧
        ((utf8Head x).1 = 2 ∨ (utf8Head x).1 = 3 ∨ (utf8Head x).1 = 4)) := by
  unfold utf8Head
  split_ifs <;> simp <;> omega

/-- After the first byte of a character of several bytes, the bytes that are left of it
are not ASCII. -/
theorem runeLen_pending (x : Nat) (rest : Str) :
    ∀ b ∈ rest.take (runeLen (x :: rest) - 1), 128 ≤ b := by
  rcases utf8Head_spec x with h1 | ⟨-, hlo, hsz⟩
  · simp [runeLen, h1]
  · rw [runeLen]
    split_ifs with g1 g2 g3 g4 g5 g6 g7
    · simp
    · simp
    · simp
    · rcases rest with _ | ⟨a, t⟩
      · simp
      · simp only [List.getD_cons_zero, not_or, not_lt] at g3
        intro b hb
        simp only [Nat.add_one_sub_one, List.take_succ_cons, List.take_zero,
          List.mem_singleton] at hb
        omega
    · simp
    · rcases rest with _ | ⟨a, _ | ⟨a2, t⟩⟩
      · simp
      · simp only [List.length_singleton] at g2
        omega
      · simp only [List.getD_cons_zero, not_or, not_lt] at g3
        simp only [List.getD_cons_succ, List.getD_cons_zero, Bool.not_eq_false, isContinuation,
          Bool.and_eq_true, decide_eq_true_eq] at g5
        intro b hb
        simp only [Nat.add_one_sub_one, List.take_succ_cons, List.take_zero, List.mem_cons,
          List.mem_singleton, List.not_mem_nil, or_false] at hb
        rcases hb with rfl | rfl <;> omega
    · simp
    · rcases rest with _ | ⟨a, _ | ⟨a2, _ | ⟨a3, t⟩⟩⟩
      · simp
      · simp only [List.length_singleton] at g2
        omega
      · simp only [List.length_cons, List.length_nil] at g2
        omega
      · simp only [List.getD_cons_zero, not_or, not_lt] at g3
        simp only [List.getD_cons_succ, List.getD_cons_zero, Bool.not_eq_false, isContinuation,
          Bool.and_eq_true, decide_eq_true_eq] at g5 g7
        intro b hb
        simp only [Nat.add_one_sub_one, List.take_succ_cons, List.take_zero, List.mem_cons,
          List.mem_singleton, List.not_mem_nil, or_false] at hb
        rcases hb with rfl | rfl | rfl <;> omega

theorem closingAt_high (c : Nat) (cs : Str) (h : 128 ≤ c) : closingAt (c :: cs) = none := by
  have h1 : ¬ c = 92 := by omega
  have h2 : ¬ c = 34 := by omega
  rcases cs with _ | ⟨a, _ | ⟨b, t⟩⟩ <;> simp [closingAt, h1, h2]

/-- Lazy characters followed by the closing part: the first closing part ends the match. -/
theorem lazyChars_flatMap_head {α : Type} (s : Str) :
    ∀ (pending : Nat) (g : Str → Str → Str → α) (f : Str × Str → List α),
    (∀ p r, f (p, r) =
      match closingAt r with
      | some (cl, rest) => [g p cl rest]
      | none => []) →
    (∀ b ∈ s.take pending, 128 ≤ b) →
    ((lazyChars pending s).flatMap f).head? =
      (scanBody s).map (fun y => g y.1 y.2.1 y.2.2) := by
  induction s with
  | nil =>
    intro pending g f hf _
    simp [lazyChars, scanBody, hf, closingAt]
  | cons x xs ih =>
    intro pending g f hf hp
    cases pending with
    | zero =>
      have h1 := ih (runeLen (x :: xs) - 1) (fun p => g (x :: p)) (fun p => f (x :: p.1, p.2))
        (fun p r => hf (x :: p) r) (runeLen_pending x xs)
      rw [lazyChars, List.flatMap_cons, scanBody, hf]
      cases hcl : closingAt (x :: xs) with
      | some y => simp
      | none =>
        by_cases hx : x = 10
        · simp [hx]
        · simp [hx, List.flatMap_map, h1, Option.map_map, Function.comp_def]
    | succ n =>
      have hx : 128 ≤ x := hp x (by simp)
      have hp2 : ∀ b ∈ xs.take n, 128 ≤ b := fun b hb => hp b (by simp [hb])
      have h1 := ih n (fun p => g (x :: p)) (fun p => f (x :: p.1, p.2))
        (fun p r => hf (x :: p) r) hp2
      have hx10 : ¬ x = 10 := by omega
      rw [lazyChars, List.flatMap_map, h1, scanBody, closingAt_high x xs hx]
      simp [hx10, Option.map_map, Function.comp_def]

theorem run_opening_cat (R : Regex) (caps : Caps) (s : Str) :
    (Regex.cat (lit 58) (.cat (.opt (lit 92)) (.cat (lit 34) R))).run caps s =
      match openingAt s with
      | some (op, r) => (R.run caps r).map (fun y => (op ++ y.1, y.2.1, y.2.2))
      | none => [] := by
  rw [run_lit_cat]
  simp only [Regex.run, run_lit_cat, run_lit]
  rcases s with _ | ⟨a, _ | ⟨b, _ | ⟨c, r⟩⟩⟩
  · simp [openingAt]
  · by_cases h1 : a = 58 <;> simp [openingAt, h1]
  · by_cases h1 : a = 58 <;> by_cases h2 : b = 92 <;> by_cases h3 : b = 34 <;>
      simp [openingAt, h1, h2, h3, Function.comp_def]
  · by_cases h1 : a = 58 <;> by_cases h2 : b = 92 <;> by_cases h3 : b = 34 <;>
      by_cases h4 : c = 34 <;> simp [openingAt, h1, h2, h3, h4, Function.comp_def]

theorem run_plus_cat (R : Regex) (hR : ∀ caps c r, isDigit c = true → R.run caps (c :: r) = [])
    (caps : Caps) (s : Str) :
    (Regex.cat (.plus .digit) R).run caps s =
      if s.takeWhile isDigit = [] then []
      else (R.run caps (s.dropWhile isDigit)).map
        (fun y => (s.takeWhile isDigit ++ y.1, y.2.1, y.2.2)) := by
  cases s with
  | nil => simp [Regex.run]
  | cons c cs =>
    by_cases hc : isDigit c = true
    · simp only [Regex.run, digit_accepts, hc, if_true, List.flatMap_map]
      rw [starGreedy_flatMap]
      · simp [List.takeWhile_cons, List.dropWhile_cons, hc]
      · intro p d r hd
        simp [hR caps d r hd]
    · simp [Regex.run, digit_accepts, hc, List.takeWhile_cons]

theorem opening_refuses_digit (R : Regex) (caps : Caps) (c : Nat) (r : Str)
    (hc : isDigit c = true) :
    (Regex.cat (lit 58) R).run caps (c :: r) = [] := by
  have h := (isDigit_iff c).1 hc
  have : c ≠ 58 := by omega
  simp [run_lit_cat, this]

theorem lexer_run (caps : Caps) (s : Str) :
    lexer.run caps s =
      match headerAt s with
      | none => []
      | some (ds, op, r) =>
        (lexBody.run caps r).map (fun y => ([115, 58] ++ ds ++ op ++ y.1, y.2.1, y.2.2)) := by
  unfold lexer
  simp only [Regex.seq]
  rw [run_lit_cat]
  rcases s with _ | ⟨a, _ | ⟨b, t⟩⟩
  · simp [headerAt]
  · by_cases h1 : a = 115 <;> simp [headerAt, h1, run_lit_cat]
  · by_cases h1 : a = 115
    · by_cases h2 : b = 58
      · subst h1 h2
        simp only [if_true, run_lit_cat]
        rw [run_plus_cat _ (fun caps c r hc => opening_refuses_digit _ caps c r hc)]
        simp only [run_opening_cat, headerAt]
        by_cases h3 : List.takeWhile isDigit t = []
        · simp [h3]
        · simp only [h3, if_false]
          cases h4 : openingAt (List.dropWhile isDigit t) with
          | none => simp
          | some y => simp [lexBody, Regex.seq, Function.comp_def]
      · simp [headerAt, h1, h2, run_lit_cat]
    · simp [headerAt, h1, run_lit_cat]


theorem run_cat (a b : Regex) (caps : Caps) (s : Str) :
    (Regex.cat a b).run caps s =
      (a.run caps s).flatMap fun x =>
        (b.run x.2.1 x.2.2).map fun y => (x.1 ++ y.1, y.2.1, y.2.2) := by
  rw [Regex.run]

theorem run_lazyAny (caps : Caps) (s : Str) :
    Regex.lazyAny.run caps s = (lazyChars 0 s).map (fun p => (p.1, caps, p.2)) := by
  rw [Regex.run]

theorem run_group (i : Nat) (a : Regex) (caps : Caps) (s : Str) :
    (Regex.group i a).run caps s =
      (a.run caps s).map fun x => (x.1, setCap x.2.1 i x.1, x.2.2) := by
  rw [Regex.run]

theorem lexBody_run_head (caps : Caps) (s : Str) :
    (lexBody.run caps s).head? = (scanBody s).map (fun y => (y.1 ++ y.2.1, caps, y.2.2)) := by
  have h : lexBody = .cat (.lazyAny) closingRe := rfl
  rw [h]
  simp only [run_cat, run_lazyAny, List.flatMap_map]
  rw [lazyChars_flatMap_head s 0 (fun p cl rest => (p ++ cl, caps, rest))]
  · intro p r
    simp only [run_closingRe]
    cases hcl : closingAt r with
    | none => simp [hcl]
    | some y => simp [hcl]
  · simp

theorem lexer_matchAt (s : Str) :
    lexer.matchAt s =
      (fieldAt s).map (fun y => (fieldText y.1 y.2.1 y.2.2.1 y.2.2.2.1, noCaps, y.2.2.2.2)) := by
  unfold Regex.matchAt fieldAt
  rw [lexer_run]
  cases headerAt s with
  | none => simp
  | some y =>
    obtain ⟨ds, op, r⟩ := y
    simp only [List.head?_map, lexBody_run_head, Option.map_map]
    cases scanBody r with
    | none => simp
    | some z => simp [fieldText]

theorem reBody_run_head (caps : Caps) (s : Str) :
    (reBody.run caps s).head? =
      (scanBody s).map (fun y => (y.1 ++ y.2.1, setCap (setCap caps 4 y.1) 5 y.2.1, y.2.2)) := by
  have h : reBody = .cat (.group 4 (.lazyAny)) (.group 5 closingRe) := rfl
  rw [h]
  simp only [run_cat, run_lazyAny, run_group, List.flatMap_map, List.map_map]
  rw [lazyChars_flatMap_head s 0
    (fun p cl rest => (p ++ cl, setCap (setCap caps 4 p) 5 cl, rest))]
  · intro p r
    simp only [run_closingRe]
    cases hcl : closingAt r with
    | none => simp [hcl]
    | some y => simp [hcl]
  · simp

theorem run_group_marker_cat (R : Regex) (caps : Caps) (s : Str) :
    (Regex.cat (.group 1 (.cat (lit 115) (lit 58))) R).run caps s =
      match s with
      | a :: b :: t =>
        if a = 115 ∧ b = 58 then
          (R.run (setCap caps 1 [115, 58]) t).map (fun y => ([115, 58] ++ y.1, y.2.1, y.2.2))
        else []
      | _ => [] := by
  simp only [Regex.run, run_lit_cat, run_lit]
  rcases s with _ | ⟨a, _ | ⟨b, t⟩⟩
  · simp
  · by_cases h1 : a = 115 <;> simp [h1]
  · by_cases h1 : a = 115 <;> by_cases h2 : b = 58 <;> simp [h1, h2]

theorem run_group_plus_cat (i : Nat) (R : Regex)
    (hR : ∀ caps c r, isDigit c = true → R.run caps (c :: r) = [])
    (caps : Caps) (s : Str) :
    (Regex.cat (.group i (.plus .digit)) R).run caps s =
      if s.takeWhile isDigit = [] then []
      else (R.run (setCap caps i (s.takeWhile isDigit)) (s.dropWhile isDigit)).map
        (fun y => (s.takeWhile isDigit ++ y.1, y.2.1, y.2.2)) := by
  cases s with
  | nil => simp [Regex.run]
  | cons c cs =>
    by_cases hc : isDigit c = true
    · simp only [Regex.run, digit_accepts, hc, if_true, List.flatMap_map, List.map_map]
      rw [starGreedy_flatMap]
      · simp [List.takeWhile_cons, List.dropWhile_cons, hc]
      · intro p d r hd
        simp [hR _ d r hd]
    · simp [Regex.run, digit_accepts, hc, List.takeWhile_cons]

theorem run_group_opening_cat (i : Nat) (R : Regex) (caps : Caps) (s : Str) :
    (Regex.cat (.group i openingRe) R).run caps s =
      match openingAt s with
      | some (op, r) => (R.run (setCap caps i op) r).map (fun y => (op ++ y.1, y.2.1, y.2.2))
      | none => [] := by
  unfold openingRe
  simp only [Regex.seq, Regex.run, run_lit_cat, run_lit]
  rcases s with _ | ⟨a, _ | ⟨b, _ | ⟨c, r⟩⟩⟩
  · simp [openingAt]
  · by_cases h1 : a = 58 <;> simp [openingAt, h1]
  · by_cases h1 : a = 58 <;> by_cases h2 : b = 92 <;> by_cases h3 : b = 34 <;>
      simp [openingAt, h1, h2, h3, Function.comp_def]
  · by_cases h1 : a = 58 <;> by_cases h2 : b = 92 <;> by_cases h3 : b = 34 <;>
      by_cases h4 : c = 34 <;> simp [openingAt, h1, h2, h3, h4, Function.comp_def]

theorem openingAt_digit (c : Nat) (r : Str) (hc : isDigit c = true) :
    openingAt (c :: r) = none := by
  have h := (isDigit_iff c).1 hc
  have h58 : c ≠ 58 := by omega
  rcases r with _ | ⟨b, _ | ⟨d, t⟩⟩ <;> simp [openingAt, h58]

theorem re_run_head (caps : Caps) (s : Str) :
    (re.run caps s).head? =
      (fieldAt s).map (fun y =>
        (fieldText y.1 y.2.1 y.2.2.1 y.2.2.2.1,
          fieldCaps caps y.1 y.2.1 y.2.2.1 y.2.2.2.1, y.2.2.2.2)) := by
  have h : re = .cat (.group 1 (.cat (lit 115) (lit 58)))
      (.cat (.group 2 (.plus .digit)) (.cat (.group 3 openingRe) reBody)) := rfl
  rw [h, run_group_marker_cat]
  unfold fieldAt
  rcases s with _ | ⟨a, _ | ⟨b, t⟩⟩
  · simp [headerAt]
  · simp [headerAt]
  · by_cases h1 : a = 115
    · by_cases h2 : b = 58
      · subst h1 h2
        simp only [and_self, if_true, headerAt]
        rw [run_group_plus_cat]
        · by_cases h3 : List.takeWhile isDigit t = []
          · simp [h3]
          · simp only [h3, if_false, run_group_opening_cat]
            cases h4 : openingAt (List.dropWhile isDigit t) with
            | none => simp
            | some y =>
              simp only [List.map_map, List.head?_map, reBody_run_head, Option.map_map,
                Option.map_some']
              cases scanBody y.2 with
              | none => simp
              | some z => simp [fieldText, fieldCaps]
        · intro caps c r hc
          simp [run_group_opening_cat, openingAt_digit c r hc]
      · simp [headerAt, h1, h2]
    · simp [headerAt, h1]

theorem re_matchAt (s : Str) :
    re.matchAt s =
      (fieldAt s).map (fun y =>
        (fieldText y.1 y.2.1 y.2.2.1 y.2.2.2.1,
          fieldCaps noCaps y.1 y.2.1 y.2.2.1 y.2.2.2.1, y.2.2.2.2)) :=
  re_run_head noCaps s

/-! ## The search for a match -/

theorem find_nil (r : Regex) :
    r.find [] = (r.matchAt []).map fun x => ([], x.1, x.2.1, x.2.2) := by
  rw [Regex.find, Regex.findFrom]

theorem find_of_matchAt (r : Regex) (s : Str) (x : Str × Caps × Str)
    (h : r.matchAt s = some x) : r.find s = some ([], x.1, x.2.1, x.2.2) := by
  cases s with
  | nil => rw [find_nil, h]; rfl
  | cons c cs => rw [Regex.find, Regex.findFrom, h]

/-- A pattern that matches nowhere at a byte that is not ASCII: the bytes left of a
character can be tried like the others. -/
theorem findFrom_pending (r : Regex) (hr : ∀ c cs, 128 ≤ c → r.matchAt (c :: cs) = none)
    (s : Str) : ∀ n, (∀ b ∈ s.take n, 128 ≤ b) → r.findFrom n s = r.findFrom 0 s := by
  induction s with
  | nil =>
    intro n _
    cases n <;> rfl
  | cons c cs ih =>
    intro n hp
    cases n with
    | zero => rfl
    | succ n =>
      have hc : 128 ≤ c := hp c (by simp)
      have hp2 : ∀ b ∈ cs.take n, 128 ≤ b := fun b hb => hp b (by simp [hb])
      have e1 : r.findFrom (n + 1) (c :: cs) =
          (r.findFrom n cs).map fun y => (c :: y.1, y.2) := by
        rw [Regex.findFrom]
      have e2 : r.findFrom 0 (c :: cs) =
          (r.findFrom (runeLen (c :: cs) - 1) cs).map fun y => (c :: y.1, y.2) := by
        rw [Regex.findFrom, hr c cs hc]
      rw [e1, e2, ih n hp2, ih _ (runeLen_pending c cs)]

theorem find_cons_none (r : Regex) (hr : ∀ c cs, 128 ≤ c → r.matchAt (c :: cs) = none)
    (c : Nat) (cs : Str) (h : r.matchAt (c :: cs) = none) :
    r.find (c :: cs) = (r.find cs).map fun y => (c :: y.1, y.2) := by
  rw [Regex.find, Regex.findFrom, h]
  simp only
  rw [findFrom_pending r hr cs _ (runeLen_pending c cs)]
  rfl

/-! ## The escape tokens -/

theorem run_alt (a b : Regex) (caps : Caps) (s : Str) :
    (Regex.alt a b).run caps s = a.run caps s ++ b.run caps s := by
  rw [Regex.run]

theorem esc_matchAt (s : Str) :
    esc.matchAt s =
      match s with
      | a :: c :: rest =>
        if a = 92 ∧ isEscapeDesignator c = true then
          some ([a, c], setCap noCaps 1 [a, c], rest)
        else none
      | _ => none := by
  unfold Regex.matchAt esc
  simp only [Regex.alts, Regex.seq, run_group, run_alt, run_lit_cat, run_lit]
  rcases s with _ | ⟨a, _ | ⟨c, rest⟩⟩
  · simp
  · by_cases h : a = 92 <;> simp [h]
  · by_cases h : a = 92
    · subst h
      simp only [if_true, true_and]
      by_cases h1 : c = 34; · subst h1; simp [isEscapeDesignator]
      by_cases h2 : c = 39; · subst h2; simp [isEscapeDesignator]
      by_cases h3 : c = 92; · subst h3; simp [isEscapeDesignator]
      by_cases h4 : c = 97; · subst h4; simp [isEscapeDesignator]
      by_cases h5 : c = 98; · subst h5; simp [isEscapeDesignator]
      by_cases h6 : c = 102; · subst h6; simp [isEscapeDesignator]
      by_cases h7 : c = 110; · subst h7; simp [isEscapeDesignator]
      by_cases h8 : c = 114; · subst h8; simp [isEscapeDesignator]
      by_cases h9 : c = 115; · subst h9; simp [isEscapeDesignator]
      by_cases h10 : c = 116; · subst h10; simp [isEscapeDesignator]
      by_cases h11 : c = 118; · subst h11; simp [isEscapeDesignator]
      by_cases h12 : c = 48; · subst h12; simp [isEscapeDesignator]
      simp [isEscapeDesignator, h1, h2, h3, h4, h5, h6, h7, h8, h9, h10, h11, h12]
    · simp [h]

theorem countEscapes_cons_of_no_match (a : Nat) (t : Str) (h : esc.matchAt (a :: t) = none) :
    countEscapes (a :: t) = countEscapes t := by
  rw [esc_matchAt] at h
  cases t with
  | nil => simp [countEscapes]
  | cons c rest =>
    by_cases hc : a = 92 ∧ isEscapeDesignator c = true
    · simp [hc] at h
    · rw [countEscapes, if_neg hc]

theorem esc_high (c : Nat) (cs : Str) (h : 128 ≤ c) : esc.matchAt (c :: cs) = none := by
  rw [esc_matchAt]
  have h1 : ¬ c = 92 := by omega
  rcases cs with _ | ⟨a, t⟩ <;> simp [h1]

theorem esc_find_none (s : Str) (h : esc.find s = none) : countEscapes s = 0 := by
  induction s with
  | nil => simp [countEscapes]
  | cons a t ih =>
    cases hm : esc.matchAt (a :: t) with
    | some x =>
      rw [find_of_matchAt esc _ x hm] at h
      exact absurd h (by simp)
    | none =>
      rw [find_cons_none esc esc_high a t hm] at h
      simp only [Option.map_eq_none'] at h
      rw [countEscapes_cons_of_no_match a t hm, ih h]

theorem esc_find_some (s pre m : Str) (caps : Caps) (rest : Str)
    (h : esc.find s = some (pre, m, caps, rest)) :
    countEscapes s = 1 + countEscapes rest ∧ rest.length + 2 ≤ s.length := by
  induction s generalizing pre with
  | nil =>
    rw [find_nil, esc_matchAt] at h
    exact absurd h (by simp)
  | cons a t ih =>
    cases hm : esc.matchAt (a :: t) with
    | some x =>
      rw [find_of_matchAt esc _ x hm] at h
      simp only [Option.some.injEq, Prod.mk.injEq] at h
      obtain ⟨-, -, -, hr⟩ := h
      rw [esc_matchAt] at hm
      rcases t with _ | ⟨c, r⟩
      · simp at hm
      · by_cases hc : a = 92 ∧ isEscapeDesignator c = true
        · simp only [hc, and_self, if_true, Option.some.injEq] at hm
          subst hm
          simp only at hr
          subst hr
          rw [countEscapes, if_pos hc]
          simp
        · simp [hc] at hm
    | none =>
      rw [find_cons_none esc esc_high a t hm] at h
      simp only [Option.map_eq_some'] at h
      obtain ⟨y, hy, hy2⟩ := h
      obtain ⟨pre2, m2, caps2, rest2⟩ := y
      simp only [Prod.mk.injEq] at hy2
      obtain ⟨-, hm2, hc2, hr⟩ := hy2
      subst hr hm2 hc2
      have := ih pre2 hy
      rw [countEscapes_cons_of_no_match a t hm]
      refine ⟨this.1, ?_⟩
      simp only [List.length_cons]
      omega

theorem esc_findAll_length (n : Nat) (s : Str) (h : s.length ≤ n) :
    (findAllLoop esc n s).1.length = countEscapes s := by
  induction n generalizing s with
  | zero =>
    have : s = [] := List.length_eq_zero.1 (Nat.le_zero.1 h)
    subst this
    simp [findAllLoop, countEscapes]
  | succ n ih =>
    rw [findAllLoop]
    cases hf : esc.find s with
    | none => simp [esc_find_none s hf]
    | some x =>
      obtain ⟨pre, m, caps, rest⟩ := x
      have h2 := esc_find_some s pre m caps rest hf
      simp only [List.length_cons]
      rw [ih rest (by omega), h2.1]
      omega

/-- The scan of `FindAllString` with the pattern `esc` counts the escape tokens. -/
theorem FindAllString_esc_length (s : Str) :
    (FindAllString esc s).length = countEscapes s := by
  unfold FindAllString
  rw [List.length_map]
  exact esc_findAll_length s.length s (Nat.le_refl _)

theorem countEscapes_le_aux (n : Nat) : ∀ s : Str, s.length ≤ n → 2 * countEscapes s ≤ s.length := by
  induction n with
  | zero =>
    intro s h
    have : s = [] := List.length_eq_zero.1 (Nat.le_zero.1 h)
    subst this
    simp [countEscapes]
  | succ n ih =>
    intro s h
    rcases s with _ | ⟨a, _ | ⟨c, rest⟩⟩
    · simp [countEscapes]
    · simp [countEscapes]
    · rw [countEscapes]
      simp only [List.length_cons] at h ⊢
      split
      · have := ih rest (by omega)
        omega
      · have := ih (c :: rest) (by simp only [List.length_cons]; omega)
        simp only [List.length_cons] at this
        omega

/-- Each escape token takes two bytes of the payload. -/
theorem countEscapes_le (s : Str) : 2 * countEscapes s ≤ s.length :=
  countEscapes_le_aux s.length s (Nat.le_refl _)

/-! ## The decimal rendering -/

theorem decimalAux_spec (fuel : Nat) : ∀ (n : Nat) (acc : Str), n < fuel →
    ∃ l : Str, decimalAux fuel n acc = l ++ acc ∧ l ≠ [] ∧ (∀ c ∈ l, isDigit c = true) ∧
      (l.head? = some 48 → n = 0) ∧
      ∀ v : Nat, l.foldl (fun a c => 10 * a + (c - 48)) v = v * 10 ^ l.length + n := by
  induction fuel with
  | zero => intro n acc h; omega
  | succ fuel ih =>
    intro n acc h
    rw [decimalAux]
    by_cases h10 : n < 10
    · refine ⟨[48 + n], ?_, ?_, ?_, ?_, ?_⟩
      · simp [h10]
      · simp
      · intro c hc
        simp only [List.mem_singleton] at hc
        subst hc
        rw [isDigit_iff]
        omega
      · intro hh
        simp only [List.head?_cons, Option.some.injEq] at hh
        omega
      · intro v
        simp only [List.foldl_cons, List.foldl_nil, List.length_singleton, pow_one]
        omega
    · obtain ⟨l, h1, h2, h3, h4, h5⟩ := ih (n / 10) ((48 + n % 10) :: acc) (by omega)
      refine ⟨l ++ [48 + n % 10], ?_, ?_, ?_, ?_, ?_⟩
      · simp [h10, h1]
      · simp
      · intro c hc
        rcases List.mem_append.1 hc with hc | hc
        · exact h3 c hc
        · simp only [List.mem_singleton] at hc
          subst hc
          rw [isDigit_iff]
          omega
      · intro hh
        cases l with
        | nil => exact absurd rfl h2
        | cons a t =>
          simp only [List.cons_append, List.head?_cons, Option.some.injEq] at hh
          have := h4 (by simp [hh])
          omega
      · intro v
        rw [List.foldl_append, h5 v]
        simp only [List.foldl_cons, List.foldl_nil, List.length_append, List.length_singleton,
          pow_succ]
        have : 48 + n % 10 - 48 = n % 10 := by omega
        rw [this]
        have hn : n = 10 * (n / 10) + n % 10 := (Nat.div_add_mod n 10).symm
        generalize 10 ^ l.length = k at *
        generalize n / 10 = q at *
        generalize n % 10 = r at *
        subst hn
        ring

theorem decimal_spec (n : Nat) :
    decimal n ≠ [] ∧ (∀ c ∈ decimal n, isDigit c = true) ∧
      ((decimal n).head? = some 48 → n = 0) ∧ decimalValue (decimal n) = n := by
  obtain ⟨l, h1, h2, h3, h4, h5⟩ := decimalAux_spec (n + 1) n [] (Nat.lt_succ_self n)
  have hl : decimal n = l := by simp [decimal, h1]
  rw [hl]
  refine ⟨h2, h3, h4, ?_⟩
  have := h5 0
  simpa [decimalValue] using this

/-! ## The shape of a field -/

theorem closingAt_some_iff (s cl r : Str) :
    closingAt s = some (cl, r) ↔ s = cl ++ r ∧ (cl = [34, 59] ∨ cl = [92, 34, 59]) := by
  constructor
  · intro h
    rcases s with _ | ⟨a, _ | ⟨b, _ | ⟨c, t⟩⟩⟩
    · simp [closingAt] at h
    · simp [closingAt] at h
    · by_cases h1 : a = 34 <;> by_cases h2 : b = 59 <;> simp [closingAt, h1, h2] at h
      obtain ⟨rfl, rfl⟩ := h
      simp [h1, h2]
    · by_cases h1 : a = 92 <;> by_cases h2 : b = 34 <;> by_cases h3 : c = 59 <;>
        by_cases h4 : a = 34 <;> by_cases h5 : b = 59 <;>
        simp [closingAt, h1, h2, h3, h4, h5] at h
      all_goals obtain ⟨rfl, rfl⟩ := h
      all_goals simp_all
  · rintro ⟨rfl, rfl | rfl⟩ <;> simp [closingAt]

theorem openingAt_some_iff (s op r : Str) :
    openingAt s = some (op, r) ↔ s = op ++ r ∧ (op = [58, 34] ∨ op = [58, 92, 34]) := by
  constructor
  · intro h
    rcases s with _ | ⟨a, _ | ⟨b, _ | ⟨c, t⟩⟩⟩
    · simp [openingAt] at h
    · simp [openingAt] at h
    · by_cases h1 : a = 58 <;> by_cases h2 : b = 34 <;> simp [openingAt, h1, h2] at h
      obtain ⟨rfl, rfl⟩ := h
      simp [h1, h2]
    · by_cases h1 : a = 58 <;> by_cases h2 : b = 92 <;> by_cases h3 : c = 34 <;>
        by_cases h4 : b = 34 <;>
        simp [openingAt, h1, h2, h3, h4] at h
      all_goals obtain ⟨rfl, rfl⟩ := h
      all_goals simp_all
  · rintro ⟨rfl, rfl | rfl⟩ <;> simp [openingAt]

theorem digits_takeWhile (ds : Str) (hds : ∀ c ∈ ds, isDigit c = true) (c : Nat) (t : Str)
    (hc : isDigit c = false) :
    (ds ++ c :: t).takeWhile isDigit = ds ∧ (ds ++ c :: t).dropWhile isDigit = c :: t := by
  constructor
  · rw [List.takeWhile_append_of_pos hds]
    simp [List.takeWhile_cons, hc]
  · rw [List.dropWhile_append_of_pos hds]
    simp [List.dropWhile_cons, hc]

theorem headerAt_some_iff (s ds op r : Str) :
    headerAt s = some (ds, op, r) ↔
      s = [115, 58] ++ ds ++ op ++ r ∧ ds ≠ [] ∧ (∀ c ∈ ds, isDigit c = true) ∧
        (op = [58, 34] ∨ op = [58, 92, 34]) := by
  constructor
  · intro h
    rcases s with _ | ⟨a, _ | ⟨b, t⟩⟩
    · simp [headerAt] at h
    · simp [headerAt] at h
    · by_cases h1 : a = 115
      · by_cases h2 : b = 58
        · subst h1 h2
          simp only [headerAt] at h
          by_cases hne : List.takeWhile isDigit t = []
          · simp [hne] at h
          · simp only [hne, if_false, Option.map_eq_some'] at h
            obtain ⟨y, hop, hy⟩ := h
            obtain ⟨op2, r2⟩ := y
            simp only [Prod.mk.injEq] at hy
            obtain ⟨hds, hop2, hr2⟩ := hy
            subst hds hop2 hr2
            rw [openingAt_some_iff] at hop
            refine ⟨?_, hne, ?_, hop.2⟩
            · have := List.takeWhile_append_dropWhile isDigit t
              rw [hop.1] at this
              simp only [List.append_assoc, List.cons_append, List.nil_append, List.cons.injEq,
                true_and]
              exact this.symm
            · intro c hc
              exact (List.mem_takeWhile_imp hc)
        · simp [headerAt, h1, h2] at h
      · simp [headerAt, h1] at h
  · rintro ⟨rfl, hne, hds, hop⟩
    have hop58 : ∃ o, op = 58 :: o := by
      rcases hop with rfl | rfl <;> exact ⟨_, rfl⟩
    obtain ⟨o, rfl⟩ := hop58
    have h58 : isDigit 58 = false := by decide
    have htd := digits_takeWhile ds hds 58 (o ++ r) h58
    simp only [List.append_assoc, List.cons_append, List.nil_append, headerAt]
    rw [htd.1, htd.2]
    have : openingAt (58 :: (o ++ r)) = some (58 :: o, r) := by
      rw [openingAt_some_iff]
      exact ⟨rfl, hop⟩
    simp [hne, this]

theorem closingAt_cons3 (a b c : Nat) (t x : Str) (h : closingAt (a :: b :: c :: t) = none) :
    closingAt (a :: b :: c :: x) = none := by
  by_cases h1 : a = 92 <;> by_cases h2 : b = 34 <;> by_cases h3 : c = 59 <;>
    by_cases h4 : a = 34 <;> by_cases h5 : b = 59 <;>
    simp [closingAt, h1, h2, h3, h4, h5] at h ⊢

theorem closingAt_ext_none (u r x : Str) (hu : 3 ≤ u.length) (h : closingAt (u ++ r) = none) :
    closingAt (u ++ x) = none := by
  rcases u with _ | ⟨a, _ | ⟨b, _ | ⟨c, t⟩⟩⟩
  · simp at hu
  · simp at hu
  · simp at hu
  · exact closingAt_cons3 a b c (t ++ r) (t ++ x) h

theorem scanBody_some (s : Str) : ∀ p cl r, scanBody s = some (p, cl, r) →
    s = p ++ cl ++ r ∧ (cl = [34, 59] ∨ cl = [92, 34, 59]) ∧ 10 ∉ p ∧
      ∀ x, scanBody (p ++ cl ++ x) = some (p, cl, x) := by
  induction s with
  | nil => intro p cl r h; simp [scanBody] at h
  | cons a t ih =>
    intro p cl r h
    rw [scanBody] at h
    cases hc : closingAt (a :: t) with
    | some y =>
      obtain ⟨c, r2⟩ := y
      simp only [hc, Option.some.injEq, Prod.mk.injEq] at h
      obtain ⟨rfl, rfl, rfl⟩ := h
      have hc2 := (closingAt_some_iff _ _ _).1 hc
      refine ⟨by simpa using hc2.1, hc2.2, by simp, ?_⟩
      intro x
      have hcx : closingAt (c ++ x) = some (c, x) := (closingAt_some_iff _ _ _).2 ⟨rfl, hc2.2⟩
      rcases hc2.2 with rfl | rfl
      · simp only [List.nil_append, List.cons_append] at hcx ⊢
        rw [scanBody, hcx]
      · simp only [List.nil_append, List.cons_append] at hcx ⊢
        rw [scanBody, hcx]
    | none =>
      simp only [hc] at h
      by_cases ha : a = 10
      · simp [ha] at h
      · simp only [ha, if_false, Option.map_eq_some'] at h
        obtain ⟨y, hy, hy2⟩ := h
        obtain ⟨p2, cl2, r3⟩ := y
        simp only [Prod.mk.injEq] at hy2
        obtain ⟨rfl, rfl, rfl⟩ := hy2
        obtain ⟨h1, h2, h3, h4⟩ := ih p2 cl2 r3 hy
        refine ⟨by simp [h1], h2, ?_, ?_⟩
        · simp only [List.mem_cons, not_or]
          exact ⟨fun e => ha e.symm, h3⟩
        · intro x
          have hlen : 2 ≤ cl2.length := by rcases h2 with h | h <;> simp [h]
          have hnone : closingAt ((a :: p2 ++ cl2) ++ x) = none := by
            apply closingAt_ext_none (a :: p2 ++ cl2) r3 x
            · simp only [List.cons_append, List.length_cons, List.length_append]
              omega
            · rw [h1] at hc
              simpa using hc
          simp only [List.cons_append, List.append_assoc] at hnone ⊢
          rw [scanBody, hnone]
          simp only [ha, if_false]
          have := h4 x
          simp only [List.append_assoc] at this
          rw [this]
          rfl

theorem IsField.digits {ds op p cl : Str} (h : IsField ds op p cl) (ds2 : Str)
    (hne : ds2 ≠ []) (hd : ∀ c ∈ ds2, isDigit c = true) : IsField ds2 op p cl :=
  ⟨hne, hd, h.2.2.1, h.2.2.2⟩

theorem fieldAt_some_iff (s ds op p cl rest : Str) :
    fieldAt s = some (ds, op, p, cl, rest) ↔
      s = fieldText ds op p cl ++ rest ∧ IsField ds op p cl := by
  unfold fieldAt IsField fieldText
  constructor
  · intro h
    cases hh : headerAt s with
    | none => simp [hh] at h
    | some y =>
      obtain ⟨ds2, op2, r⟩ := y
      simp only [hh, Option.map_eq_some'] at h
      obtain ⟨z, hz, hz2⟩ := h
      obtain ⟨p2, cl2, rest2⟩ := z
      simp only [Prod.mk.injEq] at hz2
      obtain ⟨rfl, rfl, rfl, rfl, rfl⟩ := hz2
      obtain ⟨h1, h2, h3, h4⟩ := (headerAt_some_iff _ _ _ _).1 hh
      obtain ⟨g1, g2, g3, g4⟩ := scanBody_some r _ _ _ hz
      refine ⟨?_, h2, h3, h4, ?_⟩
      · rw [h1, g1]
        simp
      · simpa using g4 []
  · rintro ⟨rfl, h2, h3, h4, h5⟩
    have hh : headerAt ([115, 58] ++ ds ++ op ++ p ++ cl ++ rest) =
        some (ds, op, p ++ cl ++ rest) := by
      rw [headerAt_some_iff]
      exact ⟨by simp, h2, h3, h4⟩
    rw [hh]
    have := (scanBody_some _ _ _ _ h5).2.2.2 rest
    simp only [this, Option.map_some']

theorem fieldAt_nil : fieldAt [] = none := by
  simp [fieldAt, headerAt]

theorem fieldText_length (ds op p cl : Str) (h : IsField ds op p cl) :
    6 ≤ (fieldText ds op p cl).length := by
  obtain ⟨h1, -, h3, h4⟩ := h
  have hcl := (scanBody_some _ _ _ _ h4).2.1
  have : 1 ≤ ds.length := by
    cases ds with
    | nil => exact absurd rfl h1
    | cons a t => simp
  have : 2 ≤ op.length := by rcases h3 with h | h <;> simp [h]
  have : 2 ≤ cl.length := by rcases hcl with h | h <;> simp [h]
  simp only [fieldText, List.length_append, List.length_cons, List.length_nil]
  omega

/-! ## The function `Replace` -/

theorem re_numGroups : re.numGroups = 5 := by
  simp [re, Regex.seq, Regex.numGroups, closingRe, lit]

theorem FindStringSubmatch_re_of_fieldAt (s ds op p cl rest : Str)
    (h : fieldAt s = some (ds, op, p, cl, rest)) :
    FindStringSubmatch re s = [fieldText ds op p cl, [115, 58], ds, op, p, cl] := by
  have hm := re_matchAt s
  rw [h] at hm
  have hf := find_of_matchAt re s _ hm
  unfold FindStringSubmatch
  rw [hf, re_numGroups]
  simp [List.range, List.range.loop, fieldCaps, setCap]

theorem fmtInt_length (p : Str) :
    fmtInt ((p.length : Int) - ((FindAllString esc p).length : Int)) =
      decimal (p.length - countEscapes p) := by
  rw [FindAllString_esc_length]
  have h := countEscapes_le p
  have h2 : ((p.length : Int) - (countEscapes p : Int)) = ((p.length - countEscapes p : Nat) : Int) := by
    omega
  rw [h2]
  unfold fmtInt
  have h3 : ¬ (((p.length - countEscapes p : Nat) : Int) < 0) := by omega
  rw [if_neg h3]
  simp

theorem Replace_of_fieldAt (s ds op p cl rest : Str)
    (h : fieldAt s = some (ds, op, p, cl, rest)) :
    Replace s = some (fixField op p cl) := by
  unfold Replace
  rw [FindStringSubmatch_re_of_fieldAt s ds op p cl rest h]
  simp [fmtInt_length, fixField, fieldText]

/-! ## The substitution loop -/

theorem fieldAt_high (c : Nat) (cs : Str) (h : 128 ≤ c) : fieldAt (c :: cs) = none := by
  have h1 : ¬ c = 115 := by omega
  rcases cs with _ | ⟨a, t⟩ <;> simp [fieldAt, headerAt, h1]

theorem lexer_high (c : Nat) (cs : Str) (h : 128 ≤ c) : lexer.matchAt (c :: cs) = none := by
  rw [lexer_matchAt, fieldAt_high c cs h]
  rfl

theorem lexer_find_nil : lexer.find [] = none := by
  rw [find_nil, lexer_matchAt, fieldAt_nil]
  rfl

theorem lexer_find_cons_none (c : Nat) (cs : Str) (h : fieldAt (c :: cs) = none) :
    lexer.find (c :: cs) = (lexer.find cs).map fun y => (c :: y.1, y.2) := by
  apply find_cons_none lexer lexer_high
  rw [lexer_matchAt, h]
  rfl

theorem lexer_find_cons_some (c : Nat) (cs ds op p cl rest : Str)
    (h : fieldAt (c :: cs) = some (ds, op, p, cl, rest)) :
    lexer.find (c :: cs) = some ([], fieldText ds op p cl, noCaps, rest) := by
  have hm := lexer_matchAt (c :: cs)
  rw [h] at hm
  exact find_of_matchAt lexer _ _ hm

theorem fieldAt_self (ds op p cl : Str) (h : IsField ds op p cl) :
    fieldAt (fieldText ds op p cl) = some (ds, op, p, cl, []) := by
  rw [fieldAt_some_iff]
  exact ⟨by simp, h⟩

theorem replaceLoop_nil (n : Nat) : replaceLoop lexer Replace n [] = some [] := by
  cases n <;> simp [replaceLoop, lexer_find_nil]

theorem replaceLoop_cons_none (n : Nat) (c : Nat) (cs : Str) (h : fieldAt (c :: cs) = none) :
    replaceLoop lexer Replace n (c :: cs) =
      (replaceLoop lexer Replace n cs).map (fun t => c :: t) := by
  rw [replaceLoop, lexer_find_cons_none c cs h]
  conv_rhs => rw [replaceLoop]
  cases hf : lexer.find cs with
  | none => simp
  | some y =>
    obtain ⟨before, m, caps, after⟩ := y
    cases n with
    | zero => simp
    | succ n =>
      simp only [Option.map_some', bind, pure]
      cases Replace m with
      | none => simp
      | some out =>
        cases replaceLoop lexer Replace n after with
        | none => simp
        | some tail => simp

theorem replaceLoop_cons_some (n : Nat) (c : Nat) (cs ds op p cl rest : Str)
    (h : fieldAt (c :: cs) = some (ds, op, p, cl, rest)) :
    replaceLoop lexer Replace (n + 1) (c :: cs) =
      (replaceLoop lexer Replace n rest).map (fun t => fixField op p cl ++ t) := by
  rw [replaceLoop, lexer_find_cons_some c cs ds op p cl rest h]
  have hf := ((fieldAt_some_iff _ _ _ _ _ _).1 h).2
  have hr := Replace_of_fieldAt _ ds op p cl [] (fieldAt_self ds op p cl hf)
  simp only [hr, bind, pure, Option.bind]
  cases replaceLoop lexer Replace n rest with
  | none => simp
  | some tail => simp

theorem fieldAt_rest_length (s ds op p cl rest : Str)
    (h : fieldAt s = some (ds, op, p, cl, rest)) : rest.length + 6 ≤ s.length := by
  obtain ⟨h1, h2⟩ := (fieldAt_some_iff _ _ _ _ _ _).1 h
  have := fieldText_length ds op p cl h2
  rw [h1, List.length_append]
  omega

theorem replaceLoop_fuel (k : Nat) : ∀ (s : Str), s.length ≤ k → ∀ n m, s.length ≤ n →
    s.length ≤ m →
    replaceLoop lexer Replace n s = replaceLoop lexer Replace m s ∧
      (replaceLoop lexer Replace n s).isSome = true := by
  induction k with
  | zero =>
    intro s hs n m _ _
    have : s = [] := List.length_eq_zero.1 (Nat.le_zero.1 hs)
    subst this
    simp [replaceLoop_nil]
  | succ k ih =>
    intro s hs n m hn hm
    cases s with
    | nil => simp [replaceLoop_nil]
    | cons c cs =>
      simp only [List.length_cons] at hs hn hm
      cases hf : fieldAt (c :: cs) with
      | none =>
        rw [replaceLoop_cons_none n c cs hf, replaceLoop_cons_none m c cs hf]
        obtain ⟨h1, h2⟩ := ih cs (by omega) n m (by omega) (by omega)
        rw [h1] at h2 ⊢
        exact ⟨rfl, by simpa using h2⟩
      | some y =>
        obtain ⟨ds, op, p, cl, rest⟩ := y
        have hl := fieldAt_rest_length _ _ _ _ _ _ hf
        simp only [List.length_cons] at hl
        obtain ⟨n, rfl⟩ : ∃ n2, n = n2 + 1 := ⟨n - 1, by omega⟩
        obtain ⟨m, rfl⟩ : ∃ m2, m = m2 + 1 := ⟨m - 1, by omega⟩
        rw [replaceLoop_cons_some n c cs ds op p cl rest hf,
          replaceLoop_cons_some m c cs ds op p cl rest hf]
        obtain ⟨h1, h2⟩ := ih rest (by omega) n m (by omega) (by omega)
        rw [h1] at h2 ⊢
        exact ⟨rfl, by simpa using h2⟩

theorem FixLine_eq_replaceLoop (s : Str) (n : Nat) (h : s.length ≤ n) :
    replaceLoop lexer Replace n s = FixLine s :=
  (replaceLoop_fuel s.length s (Nat.le_refl _) n s.length h (Nat.le_refl _)).1

theorem FixLine_eq_fix (s : Str) : FixLine s = some (fix s) := by
  have h := (replaceLoop_fuel s.length s (Nat.le_refl _) s.length s.length (Nat.le_refl _)
    (Nat.le_refl _)).2
  unfold fix
  have h2 : FixLine s = replaceLoop lexer Replace s.length s := rfl
  rw [← h2] at h
  cases hf : FixLine s with
  | none => simp [hf] at h
  | some t => simp

theorem fix_nil : fix [] = [] := by
  have : FixLine [] = some [] := replaceLoop_nil 0
  simp [fix, this]

theorem fix_cons_none (c : Nat) (cs : Str) (h : fieldAt (c :: cs) = none) :
    fix (c :: cs) = c :: fix cs := by
  have h1 : FixLine (c :: cs) = replaceLoop lexer Replace (cs.length + 1) (c :: cs) := rfl
  rw [replaceLoop_cons_none _ c cs h, FixLine_eq_replaceLoop cs _ (Nat.le_succ _),
    FixLine_eq_fix cs] at h1
  simp [fix, h1]

theorem fix_cons_some (c : Nat) (cs ds op p cl rest : Str)
    (h : fieldAt (c :: cs) = some (ds, op, p, cl, rest)) :
    fix (c :: cs) = fixField op p cl ++ fix rest := by
  have h1 : FixLine (c :: cs) = replaceLoop lexer Replace (cs.length + 1) (c :: cs) := rfl
  have hl := fieldAt_rest_length _ _ _ _ _ _ h
  simp only [List.length_cons] at hl
  rw [replaceLoop_cons_some _ c cs ds op p cl rest h,
    FixLine_eq_replaceLoop rest _ (by omega), FixLine_eq_fix rest] at h1
  simp [fix, h1]

theorem fix_field_append (ds op p cl rest : Str) (h : IsField ds op p cl) :
    fix (fieldText ds op p cl ++ rest) = fixField op p cl ++ fix rest := by
  have hf : fieldAt (fieldText ds op p cl ++ rest) = some (ds, op, p, cl, rest) :=
    (fieldAt_some_iff _ _ _ _ _ _).2 ⟨rfl, h⟩
  have : fieldText ds op p cl ++ rest = 115 :: (58 :: (ds ++ op ++ p ++ cl ++ rest)) := by
    simp [fieldText]
  rw [this] at hf ⊢
  exact fix_cons_some _ _ ds op p cl rest hf

/-! ## What the substitution keeps -/

theorem fieldAt_head (c : Nat) (cs : Str) (h : c ≠ 115) : fieldAt (c :: cs) = none := by
  cases hf : fieldAt (c :: cs) with
  | none => rfl
  | some y =>
    obtain ⟨ds, op, p, cl, rest⟩ := y
    have := ((fieldAt_some_iff _ _ _ _ _ _).1 hf).1
    simp only [fieldText, List.append_assoc, List.cons_append, List.nil_append,
      List.cons.injEq] at this
    exact absurd this.1 h

theorem fix_append_of_no_marker (u r : Str) (hu : ∀ c ∈ u, c ≠ 115) :
    fix (u ++ r) = u ++ fix r := by
  induction u with
  | nil => rfl
  | cons a t ih =>
    have ha : a ≠ 115 := hu a (List.mem_cons_self _ _)
    rw [List.cons_append, fix_cons_none a (t ++ r) (fieldAt_head a _ ha),
      ih (fun c hc => hu c (List.mem_cons_of_mem _ hc)), List.cons_append]

theorem fixField_isField (ds op p cl : Str) (h : IsField ds op p cl) :
    IsField (decimal (p.length - countEscapes p)) op p cl :=
  h.digits _ (decimal_spec _).1 (decimal_spec _).2.1

theorem fix_cons_head (c : Nat) (cs : Str) : ∃ t, fix (c :: cs) = c :: t := by
  cases hf : fieldAt (c :: cs) with
  | none => exact ⟨_, fix_cons_none c cs hf⟩
  | some y =>
    obtain ⟨ds, op, p, cl, rest⟩ := y
    have h1 := ((fieldAt_some_iff _ _ _ _ _ _).1 hf).1
    simp only [fieldText, List.append_assoc, List.cons_append, List.nil_append,
      List.cons.injEq] at h1
    refine ⟨58 :: (decimal (p.length - countEscapes p) ++ op ++ p ++ cl ++ fix rest), ?_⟩
    rw [fix_cons_some c cs ds op p cl rest hf, h1.1]
    simp [fixField, fieldText]

theorem fix_pull_back (u : Str) : ∀ (s r : Str), (∀ c ∈ u, c ≠ 115) → fix s = u ++ r →
    ∃ r2, s = u ++ r2 ∧ fix r2 = r := by
  induction u with
  | nil => intro s r _ h; exact ⟨s, rfl, h⟩
  | cons a t ih =>
    intro s r hu h
    have ha : a ≠ 115 := hu a (List.mem_cons_self _ _)
    cases s with
    | nil => simp [fix_nil] at h
    | cons c cs =>
      obtain ⟨t2, ht2⟩ := fix_cons_head c cs
      have hca : c = a := by
        rw [ht2] at h
        simp only [List.cons_append, List.cons.injEq] at h
        exact h.1
      subst hca
      rw [fix_cons_none c cs (fieldAt_head c cs ha)] at h
      simp only [List.cons_append, List.cons.injEq, true_and] at h
      obtain ⟨r2, h1, h2⟩ := ih cs r (fun x hx => hu x (List.mem_cons_of_mem _ hx)) h
      exact ⟨r2, by simp [h1], h2⟩

theorem closing_no_marker (cl : Str) (h : cl = [34, 59] ∨ cl = [92, 34, 59]) :
    ∀ c ∈ cl, c ≠ 115 := by
  rcases h with rfl | rfl <;> simp

theorem opening_no_marker (op : Str) (h : op = [58, 34] ∨ op = [58, 92, 34]) :
    ∀ c ∈ op, c ≠ 115 := by
  rcases h with rfl | rfl <;> simp

theorem digits_no_marker (ds : Str) (h : ∀ c ∈ ds, isDigit c = true) : ∀ c ∈ ds, c ≠ 115 := by
  intro c hc
  have := (isDigit_iff c).1 (h c hc)
  omega

theorem closingAt_fix (s : Str) : (closingAt (fix s)).isSome = (closingAt s).isSome := by
  cases h1 : closingAt s with
  | some y =>
    obtain ⟨cl, r⟩ := y
    obtain ⟨rfl, hcl⟩ := (closingAt_some_iff _ _ _).1 h1
    rw [fix_append_of_no_marker cl r (closing_no_marker cl hcl)]
    have : closingAt (cl ++ fix r) = some (cl, fix r) :=
      (closingAt_some_iff _ _ _).2 ⟨rfl, hcl⟩
    simp [this]
  | none =>
    cases h2 : closingAt (fix s) with
    | none => rfl
    | some y =>
      obtain ⟨cl, r⟩ := y
      obtain ⟨h3, hcl⟩ := (closingAt_some_iff _ _ _).1 h2
      obtain ⟨r2, h4, -⟩ := fix_pull_back cl s r (closing_no_marker cl hcl) h3
      have : closingAt s = some (cl, r2) := (closingAt_some_iff _ _ _).2 ⟨h4, hcl⟩
      rw [this] at h1
      exact absurd h1 (by simp)

theorem scanBody_isSome_of_closing (u : Str) : ∀ (cl r : Str), 10 ∉ u →
    (cl = [34, 59] ∨ cl = [92, 34, 59]) → (scanBody (u ++ cl ++ r)).isSome = true := by
  induction u with
  | nil =>
    intro cl r _ hcl
    have : closingAt (cl ++ r) = some (cl, r) := (closingAt_some_iff _ _ _).2 ⟨rfl, hcl⟩
    rcases hcl with rfl | rfl
    · simp only [List.nil_append, List.cons_append] at this ⊢
      rw [scanBody, this]
      rfl
    · simp only [List.nil_append, List.cons_append] at this ⊢
      rw [scanBody, this]
      rfl
  | cons a t ih =>
    intro cl r hu hcl
    simp only [List.mem_cons, not_or] at hu
    simp only [List.cons_append]
    rw [scanBody]
    cases closingAt (a :: (t ++ cl ++ r)) with
    | some y => rfl
    | none =>
      have ha : ¬ a = 10 := fun e => hu.1 e.symm
      simp only [ha, if_false, Option.isSome_map']
      exact ih cl r hu.2 hcl

theorem field_prefix_no_newline (ds op p cl : Str) (h : IsField ds op p cl) :
    10 ∉ [115, 58] ++ ds ++ op ++ p := by
  obtain ⟨-, h2, h3, h4⟩ := h
  have hp := (scanBody_some _ _ _ _ h4).2.2.1
  intro hmem
  simp only [List.mem_append, List.mem_cons, List.mem_singleton] at hmem
  rcases hmem with ((((h | h) | h) | h) | h)
  · omega
  · simp at h
  · have := (isDigit_iff 10).1 (h2 10 h)
    omega
  · rcases h3 with rfl | rfl <;> simp at h
  · exact hp h

theorem scanBody_field (ds op p cl rest : Str) (h : IsField ds op p cl) :
    (scanBody (fieldText ds op p cl ++ rest)).isSome = true := by
  have hcl := (scanBody_some _ _ _ _ h.2.2.2).2.1
  have := scanBody_isSome_of_closing ([115, 58] ++ ds ++ op ++ p) cl rest
    (field_prefix_no_newline ds op p cl h) hcl
  simpa [fieldText] using this

theorem scanBody_fix (t : Str) : (scanBody (fix t)).isSome = (scanBody t).isSome := by
  induction t with
  | nil => rw [fix_nil]
  | cons c cs ih =>
    cases hf : fieldAt (c :: cs) with
    | some y =>
      obtain ⟨ds, op, p, cl, rest⟩ := y
      obtain ⟨h1, h2⟩ := (fieldAt_some_iff _ _ _ _ _ _).1 hf
      rw [fix_cons_some c cs ds op p cl rest hf, h1, scanBody_field ds op p cl rest h2]
      exact scanBody_field _ op p cl (fix rest) (fixField_isField ds op p cl h2)
    | none =>
      have hcl := closingAt_fix (c :: cs)
      rw [fix_cons_none c cs hf] at hcl ⊢
      rw [scanBody, scanBody]
      cases h1 : closingAt (c :: cs) with
      | some y =>
        rw [h1] at hcl
        cases h2 : closingAt (c :: fix cs) with
        | some z => rfl
        | none => rw [h2] at hcl; simp at hcl
      | none =>
        rw [h1] at hcl
        cases h2 : closingAt (c :: fix cs) with
        | some z => rw [h2] at hcl; simp at hcl
        | none =>
          by_cases hc : c = 10
          · simp [hc]
          · simp only [hc, if_false, Option.isSome_map']
            exact ih

theorem fieldAt_isSome_iff (s : Str) :
    (fieldAt s).isSome = true ↔
      ∃ ds op r, headerAt s = some (ds, op, r) ∧ (scanBody r).isSome = true := by
  unfold fieldAt
  cases hh : headerAt s with
  | none => simp
  | some y =>
    obtain ⟨ds, op, r⟩ := y
    simp only [Option.isSome_map', Option.some.injEq, Prod.mk.injEq]
    constructor
    · intro h
      exact ⟨ds, op, r, ⟨rfl, rfl, rfl⟩, h⟩
    · rintro ⟨ds2, op2, r2, ⟨-, -, rfl⟩, h⟩
      exact h

/-- The substitution creates no field at a place where there was none. -/
theorem fieldAt_cons_fix (c : Nat) (cs : Str) (h : fieldAt (c :: cs) = none) :
    fieldAt (c :: fix cs) = none := by
  cases hf : fieldAt (c :: fix cs) with
  | none => rfl
  | some y =>
    exfalso
    obtain ⟨ds, op, p, cl, rest⟩ := y
    obtain ⟨h1, h2⟩ := (fieldAt_some_iff _ _ _ _ _ _).1 hf
    simp only [fieldText, List.append_assoc, List.cons_append, List.nil_append,
      List.cons.injEq] at h1
    obtain ⟨hc, h3⟩ := h1
    have hu : ∀ x ∈ 58 :: (ds ++ op), x ≠ 115 := by
      intro x hx
      simp only [List.mem_cons, List.mem_append] at hx
      rcases hx with rfl | hx | hx
      · omega
      · exact digits_no_marker ds h2.2.1 x hx
      · exact opening_no_marker op h2.2.2.1 x hx
    have h4 : fix cs = (58 :: (ds ++ op)) ++ (p ++ (cl ++ rest)) := by
      rw [h3]; simp
    obtain ⟨r2, h5, h6⟩ := fix_pull_back _ cs _ hu h4
    have hh : headerAt (c :: cs) = some (ds, op, r2) := by
      rw [headerAt_some_iff]
      refine ⟨?_, h2.1, h2.2.1, h2.2.2.1⟩
      rw [hc, h5]; simp
    have hs : (scanBody r2).isSome = true := by
      rw [← scanBody_fix r2, h6]
      have := (scanBody_some _ _ _ _ h2.2.2.2).2.2.2 rest
      simp only [List.append_assoc] at this
      rw [this]
      rfl
    have : (fieldAt (c :: cs)).isSome = true :=
      (fieldAt_isSome_iff _).2 ⟨ds, op, r2, hh, hs⟩
    rw [h] at this
    simp at this

theorem fix_idem_aux (k : Nat) : ∀ s : Str, s.length ≤ k → fix (fix s) = fix s := by
  induction k with
  | zero =>
    intro s hs
    have : s = [] := List.length_eq_zero.1 (Nat.le_zero.1 hs)
    subst this
    rw [fix_nil, fix_nil]
  | succ k ih =>
    intro s hs
    cases s with
    | nil => rw [fix_nil, fix_nil]
    | cons c cs =>
      simp only [List.length_cons] at hs
      cases hf : fieldAt (c :: cs) with
      | none =>
        rw [fix_cons_none c cs hf, fix_cons_none c (fix cs) (fieldAt_cons_fix c cs hf),
          ih cs (by omega)]
      | some y =>
        obtain ⟨ds, op, p, cl, rest⟩ := y
        obtain ⟨-, h2⟩ := (fieldAt_some_iff _ _ _ _ _ _).1 hf
        have hl := fieldAt_rest_length _ _ _ _ _ _ hf
        simp only [List.length_cons] at hl
        rw [fix_cons_some c cs ds op p cl rest hf]
        have := fix_field_append _ op p cl (fix rest) (fixField_isField ds op p cl h2)
        rw [show fixField op p cl = fieldText (decimal (p.length - countEscapes p)) op p cl
          from rfl, this, ih rest (by omega)]
        rfl

theorem fix_idem (s : Str) : fix (fix s) = fix s := fix_idem_aux s.length s (Nat.le_refl _)

/-! ## The spans the locator yields -/

theorem lexer_find_none (s : Str) (h : lexer.find s = none) : fix s = s := by
  induction s with
  | nil => exact fix_nil
  | cons c cs ih =>
    cases hf : fieldAt (c :: cs) with
    | some y =>
      obtain ⟨ds, op, p, cl, rest⟩ := y
      rw [lexer_find_cons_some c cs ds op p cl rest hf] at h
      exact absurd h (by simp)
    | none =>
      rw [lexer_find_cons_none c cs hf] at h
      simp only [Option.map_eq_none'] at h
      rw [fix_cons_none c cs hf, ih h]

theorem lexer_find_some (s : Str) : ∀ (before m : Str) (caps : Caps) (after : Str),
    lexer.find s = some (before, m, caps, after) →
    s = before ++ m ++ after ∧ after.length < s.length ∧
      ∃ ds op p cl, m = fieldText ds op p cl ∧ IsField ds op p cl ∧
        fix s = before ++ fixField op p cl ++ fix after := by
  induction s with
  | nil => intro before m caps after h; rw [lexer_find_nil] at h; exact absurd h (by simp)
  | cons c cs ih =>
    intro before m caps after h
    cases hf : fieldAt (c :: cs) with
    | some y =>
      obtain ⟨ds, op, p, cl, rest⟩ := y
      rw [lexer_find_cons_some c cs ds op p cl rest hf] at h
      simp only [Option.some.injEq, Prod.mk.injEq] at h
      obtain ⟨rfl, rfl, -, rfl⟩ := h
      obtain ⟨h1, h2⟩ := (fieldAt_some_iff _ _ _ _ _ _).1 hf
      have hl := fieldAt_rest_length _ _ _ _ _ _ hf
      refine ⟨by simpa using h1, by omega, ds, op, p, cl, rfl, h2, ?_⟩
      rw [fix_cons_some c cs ds op p cl rest hf]
      simp
    | none =>
      rw [lexer_find_cons_none c cs hf] at h
      simp only [Option.map_eq_some'] at h
      obtain ⟨y, hy, hy2⟩ := h
      obtain ⟨b2, m2, caps2, after2⟩ := y
      simp only [Prod.mk.injEq] at hy2
      obtain ⟨rfl, rfl, rfl, rfl⟩ := hy2
      obtain ⟨h1, h2, ds, op, p, cl, h3, h4, h5⟩ := ih b2 m2 caps2 after2 hy
      refine ⟨by simp [h1], by simp only [List.length_cons]; omega, ds, op, p, cl, h3, h4, ?_⟩
      rw [fix_cons_none c cs hf, h5]
      simp

theorem Replace_field (ds op p cl : Str) (h : IsField ds op p cl) :
    Replace (fieldText ds op p cl) = some (fixField op p cl) :=
  Replace_of_fieldAt _ ds op p cl [] (fieldAt_self ds op p cl h)

theorem findAllLoop_lexer (k : Nat) : ∀ s : Str, s.length ≤ k →
    s = (findAllLoop lexer k s).1.flatMap (fun y => y.1 ++ y.2) ++ (findAllLoop lexer k s).2 ∧
    (∀ y ∈ (findAllLoop lexer k s).1,
      ∃ ds op p cl, y.2 = fieldText ds op p cl ∧ IsField ds op p cl) ∧
    fix s = (findAllLoop lexer k s).1.flatMap (fun y => y.1 ++ (Replace y.2).getD []) ++
      (findAllLoop lexer k s).2 := by
  induction k with
  | zero =>
    intro s hs
    have : s = [] := List.length_eq_zero.1 (Nat.le_zero.1 hs)
    subst this
    simp [findAllLoop, fix_nil]
  | succ k ih =>
    intro s hs
    rw [findAllLoop]
    cases hf : lexer.find s with
    | none => simp [lexer_find_none s hf]
    | some y =>
      obtain ⟨before, m, caps, after⟩ := y
      obtain ⟨h1, h2, ds, op, p, cl, h3, h4, h5⟩ := lexer_find_some s before m caps after hf
      obtain ⟨g1, g2, g3⟩ := ih after (by omega)
      simp only [List.flatMap_cons, List.mem_cons, forall_eq_or_imp]
      refine ⟨?_, ⟨⟨ds, op, p, cl, h3, h4⟩, g2⟩, ?_⟩
      · rw [List.append_assoc _ _ (findAllLoop lexer k after).2, ← g1, h1]
      · rw [List.append_assoc _ _ (findAllLoop lexer k after).2, ← g3, h5, h3,
          Replace_field ds op p cl h4]
        simp

theorem findAllLoop_fuel (k : Nat) : ∀ s : Str, s.length ≤ k → ∀ n, s.length ≤ n →
    findAllLoop lexer n s = findAllLoop lexer k s := by
  induction k with
  | zero =>
    intro s hs n _
    have : s = [] := List.length_eq_zero.1 (Nat.le_zero.1 hs)
    subst this
    cases n <;> simp [findAllLoop, lexer_find_nil]
  | succ k ih =>
    intro s hs n hn
    cases n with
    | zero =>
      have : s = [] := List.length_eq_zero.1 (Nat.le_zero.1 hn)
      subst this
      simp [findAllLoop, lexer_find_nil]
    | succ n =>
      rw [findAllLoop, findAllLoop]
      cases hf : lexer.find s with
      | none => rfl
      | some y =>
        obtain ⟨before, m, caps, after⟩ := y
        obtain ⟨-, h2, -⟩ := lexer_find_some s before m caps after hf
        simp only
        rw [ih after (by omega) n (by omega)]

/-! ## Payloads without a terminator inside -/

theorem closingAt_none_of_clean (x : Nat) (t cl : Str)
    (hinf : ¬ [34, 59] <:+: x :: t)
    (hcl : cl = [92, 34, 59] ∨ (cl = [34, 59] ∧ (x :: t).getLast? ≠ some 92)) :
    closingAt (x :: t ++ cl) = none := by
  cases h : closingAt (x :: t ++ cl) with
  | none => rfl
  | some y =>
    exfalso
    obtain ⟨c, r⟩ := y
    obtain ⟨h1, h2⟩ := (closingAt_some_iff _ _ _).1 h
    rcases t with _ | ⟨b, _ | ⟨d, t2⟩⟩
    · rcases h2 with rfl | rfl <;> rcases hcl with rfl | ⟨rfl, hl⟩ <;> simp at h1
      simp [h1.1] at hl
    · rcases h2 with rfl | rfl <;> rcases hcl with rfl | ⟨rfl, hl⟩ <;> simp at h1
      all_goals
        apply hinf
        obtain ⟨rfl, rfl, -⟩ := h1
        exact ⟨[], [], rfl⟩
    · rcases h2 with rfl | rfl
      · simp only [List.cons_append, List.nil_append, List.cons.injEq] at h1
        obtain ⟨rfl, rfl, -⟩ := h1
        exact hinf ⟨[], d :: t2, rfl⟩
      · simp only [List.cons_append, List.nil_append, List.cons.injEq] at h1
        obtain ⟨rfl, rfl, rfl, -⟩ := h1
        exact hinf ⟨[92], t2, rfl⟩

theorem scanBody_of_clean (P : Str) : ∀ cl : Str, 10 ∉ P → ¬ [34, 59] <:+: P →
    (cl = [92, 34, 59] ∨ (cl = [34, 59] ∧ P.getLast? ≠ some 92)) →
    scanBody (P ++ cl) = some (P, cl, []) := by
  induction P with
  | nil =>
    intro cl _ _ hcl
    rcases hcl with rfl | ⟨rfl, -⟩ <;> simp [scanBody, closingAt]
  | cons x t ih =>
    intro cl hnl hinf hcl
    have hnone := closingAt_none_of_clean x t cl hinf hcl
    simp only [List.mem_cons, not_or] at hnl
    have hx : ¬ x = 10 := fun e => hnl.1 e.symm
    have hinf2 : ¬ [34, 59] <:+: t := fun h => hinf (List.infix_cons h)
    have hcl2 : cl = [92, 34, 59] ∨ (cl = [34, 59] ∧ t.getLast? ≠ some 92) := by
      rcases hcl with h | ⟨h, hl⟩
      · exact Or.inl h
      · refine Or.inr ⟨h, ?_⟩
        cases t with
        | nil => simp
        | cons b t2 => simpa [List.getLast?_cons_cons] using hl
    have := ih cl hnl.2 hinf2 hcl2
    simp only [List.cons_append] at hnone ⊢
    rw [scanBody, hnone]
    simp [hx, this]

/-- A payload without a double quote and without a newline, followed by `";`: the field
ends at that terminator, with or without a backslash taken into the closing part. -/
theorem scanBody_no_quote (P : Str) : 34 ∉ P → 10 ∉ P →
    ∃ p cl, P ++ [34, 59] = p ++ cl ∧ scanBody (p ++ cl) = some (p, cl, []) := by
  induction P with
  | nil =>
    intro _ _
    exact ⟨[], [34, 59], rfl, by simp [scanBody, closingAt]⟩
  | cons x t ih =>
    intro hq hnl
    simp only [List.mem_cons, not_or] at hq hnl
    obtain ⟨p, cl, h1, h2⟩ := ih hq.2 hnl.2
    by_cases hx : x = 92 ∧ t = []
    · obtain ⟨rfl, rfl⟩ := hx
      exact ⟨[], [92, 34, 59], rfl, by simp [scanBody, closingAt]⟩
    · refine ⟨x :: p, cl, by simp [h1], ?_⟩
      have hnone : closingAt (x :: (p ++ cl)) = none := by
        rw [← h1]
        have hx34 : ¬ x = 34 := fun e => hq.1 e.symm
        rcases t with _ | ⟨b, t2⟩
        · have hx92 : ¬ x = 92 := fun e => hx ⟨e, rfl⟩
          simp [closingAt, hx34, hx92]
        · have hb : ¬ b = 34 := by
            intro e
            apply hq.2
            simp [e]
          rcases t2 with _ | ⟨d, t3⟩ <;> simp [closingAt, hx34, hb]
      have hx10 : ¬ x = 10 := fun e => hnl.1 e.symm
      simp only [List.cons_append]
      rw [scanBody, hnone]
      simp [hx10, h2]

/-! ## Text between two fields -/

theorem fieldAt_gap (x : Nat) (t w : Str) (hq : 34 ∉ x :: t) :
    fieldAt ((x :: t) ++ 115 :: w) = none := by
  cases hf : fieldAt ((x :: t) ++ 115 :: w) with
  | none => rfl
  | some y =>
    exfalso
    obtain ⟨ds, op, p, cl, rest⟩ := y
    obtain ⟨h1, h2⟩ := (fieldAt_some_iff _ _ _ _ _ _).1 hf
    have hop : 34 ∈ op := by rcases h2.2.2.1 with h | h <;> simp [h]
    have hno : ∀ c ∈ 58 :: (ds ++ op), c ≠ 115 := by
      intro c hc
      simp only [List.mem_cons, List.mem_append] at hc
      rcases hc with rfl | hc | hc
      · omega
      · exact digits_no_marker ds h2.2.1 c hc
      · exact opening_no_marker op h2.2.2.1 c hc
    have h3 : (x :: t) ++ 115 :: w = (115 :: 58 :: (ds ++ op)) ++ (p ++ cl ++ rest) := by
      rw [h1]; simp [fieldText]
    rcases List.append_eq_append_iff.1 h3 with ⟨a, ha, hb⟩ | ⟨c, hc, -⟩
    · cases a with
      | nil =>
        apply hq
        rw [List.append_nil] at ha
        rw [← ha]
        simp [hop]
      | cons a0 a1 =>
        simp only [List.cons_append, List.cons.injEq] at hb
        obtain ⟨rfl, -⟩ := hb
        simp only [List.cons_append, List.cons.injEq] at ha
        have : (115 : Nat) ∈ 58 :: (ds ++ op) := by
          rw [ha.2]; simp
        exact hno 115 this rfl
    · apply hq
      rw [hc]
      simp [hop]

theorem fix_gap (t w : Str) (hq : 34 ∉ t) : fix (t ++ 115 :: w) = t ++ fix (115 :: w) := by
  induction t with
  | nil => rfl
  | cons x t ih =>
    have hq2 : 34 ∉ t := fun h => hq (List.mem_cons_of_mem _ h)
    have := fix_cons_none x (t ++ 115 :: w) (fieldAt_gap x t w hq)
    rw [List.cons_append, this, ih hq2, List.cons_append]

/-! ## Reading the input line by line -/

theorem ReadString_line (b rest : Str) (hb : 10 ∉ b) :
    ReadString 10 (b ++ 10 :: rest) = (b ++ [10], false, rest) := by
  induction b with
  | nil => simp [ReadString]
  | cons x t ih =>
    simp only [List.mem_cons, not_or] at hb
    have hx : ¬ x = 10 := fun e => hb.1 e.symm
    simp [ReadString, hx, ih hb.2]

theorem ReadString_eof (R : Str) (hR : 10 ∉ R) : ReadString 10 R = (R, true, []) := by
  induction R with
  | nil => simp [ReadString]
  | cons x t ih =>
    simp only [List.mem_cons, not_or] at hR
    have hx : ¬ x = 10 := fun e => hR.1 e.symm
    simp [ReadString, hx, ih hR.2]

theorem processLinesLoop_spec (Ls : List Str) (R : Str) (hR : 10 ∉ R) :
    ∀ (fuel : Nat) (written : Str), Ls.length < fuel →
    (∀ L ∈ Ls, ∃ b, L = b ++ [10] ∧ 10 ∉ b) →
    processLinesLoop fuel (Ls.flatten ++ R) written =
      some (written ++ (Ls.map fix).flatten) := by
  induction Ls with
  | nil =>
    intro fuel written hf _
    obtain ⟨n, rfl⟩ : ∃ n, fuel = n + 1 := ⟨fuel - 1, by simp at hf; omega⟩
    simp [processLinesLoop, ReadString_eof R hR]
  | cons L Ls ih =>
    intro fuel written hf hL
    simp only [List.length_cons] at hf
    obtain ⟨n, rfl⟩ : ∃ n, fuel = n + 1 := ⟨fuel - 1, by omega⟩
    obtain ⟨b, rfl, hb⟩ := hL L (List.mem_cons_self _ _)
    have hrd : ReadString 10 (((b ++ [10]) :: Ls).flatten ++ R) =
        (b ++ [10], false, Ls.flatten ++ R) := by
      have := ReadString_line b (Ls.flatten ++ R) hb
      simpa using this
    rw [processLinesLoop, hrd]
    simp only [Bool.false_eq_true, if_false, FixLine_eq_fix]
    rw [ih n _ (by omega) (fun L hL2 => hL L (List.mem_cons_of_mem _ hL2))]
    simp

/-! ## The claims -/

theorem located_field (l m : Str) (hm : m ∈ FindAllString lexer l) :
    ∃ ds op p cl, m = fieldText ds op p cl ∧ IsField ds op p cl := by
  unfold FindAllString at hm
  obtain ⟨y, hy, rfl⟩ := List.mem_map.1 hm
  exact (findAllLoop_lexer l.length l (Nat.le_refl _)).2.1 y hy

theorem re_find_field (ds op p cl : Str) (h : IsField ds op p cl) :
    re.find (fieldText ds op p cl) =
      some ([], fieldText ds op p cl, fieldCaps noCaps ds op p cl, []) := by
  have hm := re_matchAt (fieldText ds op p cl)
  rw [fieldAt_self ds op p cl h] at hm
  exact find_of_matchAt re _ _ hm

/-- C1 (Field Fixer length rule): for every span `m` that the locator yields in a line,
`re` splits `m` into the marker `s:`, the digits, the opening, the payload and the closing,
and `Replace m` is the same five parts with the digits replaced by the decimal rendering of
(byte length of the payload) minus (the number of escape tokens a left-to-right,
non-overlapping scan finds); the count of `esc.FindAllString` is that number. -/
theorem C1_replace_length_rule (line m : Str) (hm : m ∈ FindAllString lexer line) :
    ∃ p2 p3 p4 p5 : Str,
      FindStringSubmatch re m = [m, [115, 58], p2, p3, p4, p5] ∧
      m = [115, 58] ++ p2 ++ p3 ++ p4 ++ p5 ∧
      (∀ c ∈ p2, isDigit c = true) ∧
      (FindAllString esc p4).length = countEscapes p4 ∧
      countEscapes p4 ≤ p4.length ∧
      decimalValue (decimal (p4.length - countEscapes p4)) = p4.length - countEscapes p4 ∧
      Replace m =
        some ([115, 58] ++ decimal (p4.length - countEscapes p4) ++ p3 ++ p4 ++ p5) := by
  obtain ⟨ds, op, p, cl, rfl, hf⟩ := located_field line m hm
  refine ⟨ds, op, p, cl, ?_, rfl, hf.2.1, FindAllString_esc_length p, ?_,
    (decimal_spec _).2.2.2, ?_⟩
  · exact FindStringSubmatch_re_of_fieldAt _ ds op p cl [] (fieldAt_self ds op p cl hf)
  · have := countEscapes_le p
    omega
  · exact Replace_field ds op p cl hf

/-- C1 at the example of the specification inside a longer line. -/
theorem C1_replace_length_rule_witness :
    sampleField ∈ FindAllString lexer sampleLine ∧
    ∃ p2 p3 p4 p5 : Str,
      FindStringSubmatch re sampleField = [sampleField, [115, 58], p2, p3, p4, p5] ∧
      sampleField = [115, 58] ++ p2 ++ p3 ++ p4 ++ p5 ∧
      (∀ c ∈ p2, isDigit c = true) ∧
      (FindAllString esc p4).length = countEscapes p4 ∧
      countEscapes p4 ≤ p4.length ∧
      decimalValue (decimal (p4.length - countEscapes p4)) = p4.length - countEscapes p4 ∧
      Replace sampleField =
        some ([115, 58] ++ decimal (p4.length - countEscapes p4) ++ p3 ++ p4 ++ p5) :=
  ⟨by decide, C1_replace_length_rule sampleLine sampleField (by decide)⟩

/-- C2 (idempotence): `FixLine` returns a text for every line, and applying `FixLine` to
that text returns it unchanged. -/
theorem C2_fixline_idempotent (l : Str) :
    ∃ l2 : Str, FixLine l = some l2 ∧ FixLine l2 = some l2 :=
  ⟨fix l, FixLine_eq_fix l, by rw [FixLine_eq_fix (fix l), fix_idem]⟩

/-- C3 (totality): for every line, every span the locator yields is matched by `re` from
its first byte to its last, into five parts whose concatenation is the span, so the
indexing in `Replace` succeeds; `FixLine` returns a text, and the loop of
`ReplaceAllStringFunc` gives the same text with any larger amount of fuel. -/
theorem C3_fixline_total (l : Str) :
    (FixLine l).isSome = true ∧
    (∀ fuel, l.length ≤ fuel → replaceLoop lexer Replace fuel l = FixLine l) ∧
    ∀ m ∈ FindAllString lexer l,
      ∃ (caps : Caps) (p1 p2 p3 p4 p5 : Str),
        re.find m = some ([], m, caps, []) ∧
        FindStringSubmatch re m = [m, p1, p2, p3, p4, p5] ∧
        p1 ++ p2 ++ p3 ++ p4 ++ p5 = m ∧
        (Replace m).isSome = true := by
  refine ⟨by simp [FixLine_eq_fix], fun fuel h => FixLine_eq_replaceLoop l fuel h, ?_⟩
  intro m hm
  obtain ⟨ds, op, p, cl, rfl, hf⟩ := located_field l m hm
  refine ⟨_, [115, 58], ds, op, p, cl, re_find_field ds op p cl hf, ?_, rfl, ?_⟩
  · exact FindStringSubmatch_re_of_fieldAt _ ds op p cl [] (fieldAt_self ds op p cl hf)
  · simp [Replace_field ds op p cl hf]

/-- C3 at the example line. -/
theorem C3_fixline_total_witness :
    sampleField ∈ FindAllString lexer sampleLine ∧
    (FixLine sampleLine).isSome = true ∧
    ∃ (caps : Caps) (p1 p2 p3 p4 p5 : Str),
      re.find sampleField = some ([], sampleField, caps, []) ∧
      FindStringSubmatch re sampleField = [sampleField, p1, p2, p3, p4, p5] ∧
      p1 ++ p2 ++ p3 ++ p4 ++ p5 = sampleField ∧
      (Replace sampleField).isSome = true :=
  ⟨by decide, (C3_fixline_total sampleLine).1,
    (C3_fixline_total sampleLine).2.2 sampleField (by decide)⟩

/-- C4, as stated, fails: `re` finds nothing in the text `abc`, and `Replace` does not
return the text but stops on the indexing of the nil slice. -/
theorem C4_counterexample :
    FindStringSubmatch re (ascii "abc") = [] ∧
    Replace (ascii "abc") = none ∧
    Replace (ascii "abc") ≠ some (ascii "abc") := by
  refine ⟨by decide, by decide, by decide⟩

/-- C4, amended: for every text in which `re` finds no match, `Replace` returns nothing
(the indexing `parts[4]` of the nil slice is out of range). -/
theorem C4_replace_without_match (m : Str) (h : FindStringSubmatch re m = []) :
    Replace m = none := by
  unfold Replace
  rw [h]
  rfl

/-- C4, amended, at a text with a marker but no closing part. -/
theorem C4_replace_without_match_witness :
    FindStringSubmatch re (ascii "s:3:\"abc") = [] ∧ Replace (ascii "s:3:\"abc") = none :=
  ⟨by decide, C4_replace_without_match (ascii "s:3:\"abc") (by decide)⟩

theorem countEscapes_snoc_aux (n : Nat) : ∀ Q : Str, Q.length ≤ n →
    countEscapes (Q ++ [92]) = countEscapes Q ∨
      countEscapes (Q ++ [92]) = countEscapes Q + 1 := by
  induction n with
  | zero =>
    intro Q hQ
    have : Q = [] := List.length_eq_zero.1 (Nat.le_zero.1 hQ)
    subst this
    exact Or.inl (by decide)
  | succ n ih =>
    intro Q hQ
    rcases Q with _ | ⟨a, _ | ⟨c, rest⟩⟩
    · exact Or.inl (by decide)
    · by_cases ha : a = 92
      · subst ha
        exact Or.inr (by decide)
      · refine Or.inl ?_
        simp [countEscapes, ha]
    · simp only [List.length_cons] at hQ
      simp only [List.cons_append]
      rw [countEscapes, countEscapes]
      by_cases ht : a = 92 ∧ isEscapeDesignator c = true
      · simp only [ht, and_self, if_true]
        rcases ih rest (by omega) with h | h
        · exact Or.inl (by rw [h])
        · exact Or.inr (by rw [h]; omega)
      · simp only [ht, if_false]
        have := ih (c :: rest) (by simp only [List.length_cons]; omega)
        simpa using this

/-- A backslash added at the end of a payload either completes an escape token with the
byte before it, or is left unpaired by the scan. -/
theorem countEscapes_snoc (Q : Str) :
    countEscapes (Q ++ [92]) = countEscapes Q ∨
      countEscapes (Q ++ [92]) = countEscapes Q + 1 :=
  countEscapes_snoc_aux Q.length Q (Nat.le_refl _)

theorem FixLine_field (d op p cl : Str) (hf : IsField d op p cl) :
    FixLine (fieldText d op p cl) = some (fixField op p cl) := by
  have := fix_field_append d op p cl [] hf
  simp only [List.append_nil, fix_nil] at this
  rw [FixLine_eq_fix, this]

theorem decimal_injective (a b : Nat) (h : decimal a = decimal b) : a = b := by
  have ha := (decimal_spec a).2.2.2
  have hb := (decimal_spec b).2.2.2
  rw [h] at ha
  omega

/-- C5, as stated, fails: the payload `a\` (no newline, no `";` inside) in the unescaped
style gives the field `s:2:"a\";`, whose claimed result has length 2, but the backslash is
taken into the closing part and the length written is 1. -/
theorem C5_counterexample :
    (10 ∉ [97, 92] ∧ ¬ [34, 59] <:+: [97, 92]) ∧
    FixLine ([115, 58] ++ [50] ++ [58, 34] ++ [97, 92] ++ [34, 59]) =
      some ([115, 58] ++ [49] ++ [58, 34] ++ [97, 92] ++ [34, 59]) ∧
    FixLine ([115, 58] ++ [50] ++ [58, 34] ++ [97, 92] ++ [34, 59]) ≠
      some ([115, 58] ++ decimal ([97, 92].length - countEscapes [97, 92]) ++ [58, 34] ++
        [97, 92] ++ [34, 59]) := by
  refine ⟨⟨by decide, by decide⟩, by decide, by decide⟩

/-- C5, amended (end-to-end length correctness): for a non-empty digit string `d`, either
quoting style, and a payload `P` with no newline and no `";` inside, `FixLine` rewrites the
field to the length `len(P) - k`, with `k` the number of escape tokens of `P`, in every case
but one: the unescaped style with a payload whose last byte is a backslash that the token
scan leaves unpaired (`k` is the same without that byte).  In that case the backslash is
taken into the closing part and the length written is `len(P) - 1 - k`. -/
theorem C5_end_to_end_length (d P op cl : Str) (hd : d ≠ []) (hdig : ∀ c ∈ d, isDigit c = true)
    (hnl : 10 ∉ P) (hterm : ¬ [34, 59] <:+: P)
    (hstyle : (op = [58, 92, 34] ∧ cl = [92, 34, 59]) ∨ (op = [58, 34] ∧ cl = [34, 59])) :
    (FixLine ([115, 58] ++ d ++ op ++ P ++ cl) =
        some ([115, 58] ++ decimal (P.length - countEscapes P) ++ op ++ P ++ cl) ↔
      ¬ (cl = [34, 59] ∧ P.getLast? = some 92 ∧ countEscapes P = countEscapes P.dropLast)) ∧
    ((cl = [34, 59] ∧ P.getLast? = some 92 ∧ countEscapes P = countEscapes P.dropLast) →
      FixLine ([115, 58] ++ d ++ op ++ P ++ cl) =
        some ([115, 58] ++ decimal (P.length - 1 - countEscapes P) ++ op ++ P ++ cl)) := by
  have hclean : ∀ op2 cl2 : Str, (op2 = [58, 34] ∨ op2 = [58, 92, 34]) →
      (cl2 = [92, 34, 59] ∨ (cl2 = [34, 59] ∧ P.getLast? ≠ some 92)) →
      FixLine ([115, 58] ++ d ++ op2 ++ P ++ cl2) =
        some ([115, 58] ++ decimal (P.length - countEscapes P) ++ op2 ++ P ++ cl2) := by
    intro op2 cl2 hop hcl
    exact FixLine_field d op2 P cl2 ⟨hd, hdig, hop, scanBody_of_clean P cl2 hnl hterm hcl⟩
  rcases hstyle with ⟨rfl, rfl⟩ | ⟨rfl, rfl⟩
  · refine ⟨?_, ?_⟩
    · constructor
      · intro _ h
        exact absurd h.1 (by decide)
      · intro _
        exact hclean _ _ (Or.inr rfl) (Or.inl rfl)
    · intro h
      exact absurd h.1 (by decide)
  · by_cases hl : P.getLast? = some 92
    · obtain ⟨Q, rfl⟩ : ∃ Q, P = Q ++ [92] :=
        ⟨P.dropLast, (List.dropLast_append_getLast? 92 (by simp [hl])).symm⟩
      have hQnl : 10 ∉ Q := fun h => hnl (List.mem_append_left _ h)
      have hQterm : ¬ [34, 59] <:+: Q :=
        fun h => hterm (h.trans (List.prefix_append Q [92]).isInfix)
      have hf : IsField d [58, 34] Q [92, 34, 59] :=
        ⟨hd, hdig, Or.inl rfl, scanBody_of_clean Q _ hQnl hQterm (Or.inl rfl)⟩
      have htext : [115, 58] ++ d ++ [58, 34] ++ (Q ++ [92]) ++ [34, 59] =
          fieldText d [58, 34] Q [92, 34, 59] := by simp [fieldText]
      have hout : ∀ n : Nat, [115, 58] ++ decimal n ++ [58, 34] ++ (Q ++ [92]) ++ [34, 59] =
          [115, 58] ++ (decimal n ++ ([58, 34] ++ Q ++ [92, 34, 59])) := by
        intro n; simp
      have hfix : FixLine ([115, 58] ++ d ++ [58, 34] ++ (Q ++ [92]) ++ [34, 59]) =
          some ([115, 58] ++ (decimal (Q.length - countEscapes Q) ++
            ([58, 34] ++ Q ++ [92, 34, 59]))) := by
        rw [htext, FixLine_field d _ Q _ hf]
        simp [fixField, fieldText]
      have hdl : (Q ++ [92]).dropLast = Q := by simp
      have hle := countEscapes_le Q
      have hle2 := countEscapes_le (Q ++ [92])
      have hlen : (Q ++ [92]).length = Q.length + 1 := by simp
      rw [hlen] at hle2
      rw [hfix, hout, hout, hdl, hlen]
      refine ⟨?_, ?_⟩
      · constructor
        · intro h hex
          simp only [Option.some.injEq, List.append_cancel_left_eq,
            List.append_cancel_right_eq] at h
          have := decimal_injective _ _ h
          have := hex.2.2
          omega
        · intro hne
          have hk : countEscapes (Q ++ [92]) = countEscapes Q + 1 := by
            rcases countEscapes_snoc Q with h | h
            · exact absurd ⟨rfl, hl, h⟩ hne
            · exact h
          rw [hk]
          have : Q.length + 1 - (countEscapes Q + 1) = Q.length - countEscapes Q := by omega
          rw [this]
      · intro hex
        rw [hex.2.2]
        have : Q.length + 1 - 1 - countEscapes Q = Q.length - countEscapes Q := by omega
        rw [this]
    · refine ⟨?_, ?_⟩
      · constructor
        · intro _ h
          exact hl h.2.1
        · intro _
          exact hclean _ _ (Or.inl rfl) (Or.inr ⟨rfl, hl⟩)
      · intro h
        exact absurd h.2.1 hl

/-- C5 at the example of the specification, `s:99:\"hi\\nthere\";` giving
`s:9:\"hi\\nthere\";`, and at the unescaped field `s:9:"\\";`, whose payload ends in a
backslash that completes an escape token, giving `s:1:"\\";`. -/
theorem C5_end_to_end_length_witness :
    (sampleField = [115, 58] ++ ascii "99" ++ [58, 92, 34] ++ ascii "hi\\\\nthere" ++
      [92, 34, 59] ∧
    sampleFixed = [115, 58] ++ decimal ((ascii "hi\\\\nthere").length -
      countEscapes (ascii "hi\\\\nthere")) ++ [58, 92, 34] ++ ascii "hi\\\\nthere" ++
      [92, 34, 59]) ∧
    FixLine ([115, 58] ++ ascii "99" ++ [58, 92, 34] ++ ascii "hi\\\\nthere" ++
      [92, 34, 59]) =
      some ([115, 58] ++ decimal ((ascii "hi\\\\nthere").length -
        countEscapes (ascii "hi\\\\nthere")) ++ [58, 92, 34] ++ ascii "hi\\\\nthere" ++
        [92, 34, 59]) ∧
    FixLine ([115, 58] ++ [57] ++ [58, 34] ++ [92, 92] ++ [34, 59]) =
      some ([115, 58] ++ decimal ([92, 92].length - countEscapes [92, 92]) ++ [58, 34] ++
        [92, 92] ++ [34, 59]) ∧
    [115, 58] ++ decimal ([92, 92].length - countEscapes [92, 92]) ++ [58, 34] ++
      [92, 92] ++ [34, 59] = ascii "s:1:\"\\\\\";" ∧
    FixLine ([115, 58] ++ [50] ++ [58, 34] ++ [97, 92] ++ [34, 59]) =
      some ([115, 58] ++ decimal ([97, 92].length - 1 - countEscapes [97, 92]) ++ [58, 34] ++
        [97, 92] ++ [34, 59]) :=
  ⟨⟨by decide, by decide⟩,
    (C5_end_to_end_length (ascii "99") (ascii "hi\\\\nthere") [58, 92, 34] [92, 34, 59]
      (by decide) (by decide) (by decide) (by decide) (Or.inl ⟨rfl, rfl⟩)).1.2 (by decide),
    (C5_end_to_end_length [57] [92, 92] [58, 34] [34, 59]
      (by decide) (by decide) (by decide) (by decide) (Or.inr ⟨rfl, rfl⟩)).1.2 (by decide),
    by decide,
    (C5_end_to_end_length [50] [97, 92] [58, 34] [34, 59]
      (by decide) (by decide) (by decide) (by decide) (Or.inr ⟨rfl, rfl⟩)).2 (by decide)⟩

theorem findAllLoop_tail (k : Nat) : ∀ s : Str, s.length ≤ k →
    lexer.find (findAllLoop lexer k s).2 = none := by
  induction k with
  | zero =>
    intro s hs
    have : s = [] := List.length_eq_zero.1 (Nat.le_zero.1 hs)
    subst this
    simp [findAllLoop, lexer_find_nil]
  | succ k ih =>
    intro s hs
    rw [findAllLoop]
    cases hf : lexer.find s with
    | none => simpa using hf
    | some y =>
      obtain ⟨before, m, caps, after⟩ := y
      obtain ⟨-, h2, -⟩ := lexer_find_some s before m caps after hf
      exact ih after (by omega)

/-- C6 (non-field preservation and passthrough): with the spans `m1..mn` that the locator
yields from left to right and the texts `u0..un` around them, the line is
`u0 ++ m1 ++ u1 ++ ... ++ mn ++ un`, no further match is left in `un` (more fuel finds no
more spans), `Replace` returns a text for every span, and `FixLine` returns
`u0 ++ Replace(m1) ++ u1 ++ ... ++ Replace(mn) ++ un`; a line without a candidate field is
returned unchanged. -/
theorem C6_text_outside_spans_kept (l : Str) :
    l = (findAllLoop lexer l.length l).1.flatMap (fun y => y.1 ++ y.2) ++
      (findAllLoop lexer l.length l).2 ∧
    FindAllString lexer l = (findAllLoop lexer l.length l).1.map (fun y => y.2) ∧
    lexer.find (findAllLoop lexer l.length l).2 = none ∧
    (∀ fuel, l.length ≤ fuel → findAllLoop lexer fuel l = findAllLoop lexer l.length l) ∧
    (∀ y ∈ (findAllLoop lexer l.length l).1, (Replace y.2).isSome = true) ∧
    FixLine l =
      some ((findAllLoop lexer l.length l).1.flatMap (fun y => y.1 ++ (Replace y.2).getD []) ++
        (findAllLoop lexer l.length l).2) ∧
    (FindAllString lexer l = [] → FixLine l = some l) := by
  obtain ⟨h1, h2, h3⟩ := findAllLoop_lexer l.length l (Nat.le_refl _)
  refine ⟨h1, rfl, findAllLoop_tail l.length l (Nat.le_refl _),
    fun fuel h => findAllLoop_fuel l.length l (Nat.le_refl _) fuel h, ?_, ?_, ?_⟩
  · intro y hy
    obtain ⟨ds, op, p, cl, hm, hf⟩ := h2 y hy
    rw [hm, Replace_field ds op p cl hf]
    rfl
  · rw [FixLine_eq_fix, h3]
  · intro hnil
    unfold FindAllString at hnil
    have hnil2 : (findAllLoop lexer l.length l).1 = [] := by simpa using hnil
    rw [FixLine_eq_fix, h3]
    rw [hnil2] at h1 ⊢
    simp only [List.flatMap_nil, List.nil_append] at h1 ⊢
    rw [← h1]

/-- C6 at the example line and at a line without a field. -/
theorem C6_text_outside_spans_kept_witness :
    FixLine sampleLine = some (ascii "a:1:\x7b" ++ sampleFixed ++ ascii "\x7d\n") ∧
    FindAllString lexer (ascii "i:5;b:1;\n") = [] ∧
    FixLine (ascii "i:5;b:1;\n") = some (ascii "i:5;b:1;\n") :=
  ⟨by decide, by decide, (C6_text_outside_spans_kept (ascii "i:5;b:1;\n")).2.2.2.2.2.2 (by decide)⟩

/-- C7 fails on the code: `processLines` leaves the loop on `io.EOF` before it writes what
`ReadString` returned with it, so a last line without a newline is not written.  For the
input `s:9:"abc";` nothing at all is written, and for `a`, newline, `s:9:"abc";` only the
first line is, although `FixLine` returns a text for the last line, the same input ended
by a newline is written in full, and `processStdin` prints the last line of the same
input. -/
theorem C7_last_line_dropped :
    processLines (ascii "s:9:\"abc\";") = some [] ∧
    processLines (ascii "a\ns:9:\"abc\";") = some (ascii "a\n") ∧
    FixLine (ascii "s:9:\"abc\";") = some (ascii "s:3:\"abc\";") ∧
    processLines (ascii "a\ns:9:\"abc\";\n") = some (ascii "a\ns:3:\"abc\";\n") ∧
    processStdin (ascii "a\ns:9:\"abc\";") = some (ascii "a\ns:3:\"abc\";\n") := by
  refine ⟨by decide, by decide, by decide, by decide, by decide⟩

/-- What `processLines` writes: the fixed text of every line that ends in a newline, in
order, and nothing for the text after the last newline. -/
theorem processLines_spec (Ls : List Str) (R : Str) (hR : 10 ∉ R)
    (hL : ∀ L ∈ Ls, ∃ b, L = b ++ [10] ∧ 10 ∉ b) :
    processLines (Ls.flatten ++ R) = some ((Ls.map fix).flatten) := by
  unfold processLines
  rw [processLinesLoop_spec Ls R hR _ [] ?_ hL]
  · simp
  · have : Ls.length ≤ Ls.flatten.length := by
      clear hR
      induction Ls with
      | nil => simp
      | cons L Ls ih =>
        obtain ⟨b, rfl, -⟩ := hL L (List.mem_cons_self _ _)
        have := ih (fun L hL2 => hL L (List.mem_cons_of_mem _ hL2))
        simp only [List.flatten_cons, List.length_append, List.length_cons, List.length_nil]
        omega
    simp only [List.length_append]
    omega

theorem fix_simple_field (d P : Str) (hd : d ≠ []) (hdig : ∀ c ∈ d, isDigit c = true)
    (hq : 34 ∉ P) (hnl : 10 ∉ P) :
    ∃ n : Nat, ∀ rest : Str,
      fix ([115, 58] ++ d ++ [58, 34] ++ P ++ [34, 59] ++ rest) =
        ([115, 58] ++ decimal n ++ [58, 34] ++ P ++ [34, 59]) ++ fix rest := by
  obtain ⟨p, cl, h1, h2⟩ := scanBody_no_quote P hq hnl
  have hf : IsField d [58, 34] p cl := ⟨hd, hdig, Or.inl rfl, h2⟩
  refine ⟨p.length - countEscapes p, fun rest => ?_⟩
  have := fix_field_append d [58, 34] p cl rest hf
  have e1 : [115, 58] ++ d ++ [58, 34] ++ P ++ [34, 59] ++ rest =
      fieldText d [58, 34] p cl ++ rest := by
    simp only [fieldText, List.append_assoc]
    rw [← List.append_assoc p cl rest, ← h1]
    simp
  have e2 : [115, 58] ++ decimal (p.length - countEscapes p) ++ [58, 34] ++ P ++ [34, 59] =
      fixField [58, 34] p cl := by
    simp only [fixField, fieldText, List.append_assoc]
    rw [← h1]
  rw [e1, e2, this]

/-- C8 (several fields in a line): for two fields in the unescaped style whose digits are
non-empty digit strings and whose payloads, like the text between them, hold no double
quote and no newline, `FixLine` of the first field, the text and the second field is
`FixLine` of the first, the text unchanged, and `FixLine` of the second; each of the two
differs from its field in the digits only. -/
theorem C8_fields_fixed_independently (d1 d2 P1 P2 T : Str)
    (hd1 : d1 ≠ []) (hdig1 : ∀ c ∈ d1, isDigit c = true)
    (hd2 : d2 ≠ []) (hdig2 : ∀ c ∈ d2, isDigit c = true)
    (hP1 : 34 ∉ P1 ∧ 10 ∉ P1) (hP2 : 34 ∉ P2 ∧ 10 ∉ P2) (hT : 34 ∉ T ∧ 10 ∉ T) :
    ∃ (a b : Str) (n1 n2 : Nat),
      a = [115, 58] ++ decimal n1 ++ [58, 34] ++ P1 ++ [34, 59] ∧
      b = [115, 58] ++ decimal n2 ++ [58, 34] ++ P2 ++ [34, 59] ∧
      FixLine ([115, 58] ++ d1 ++ [58, 34] ++ P1 ++ [34, 59]) = some a ∧
      FixLine ([115, 58] ++ d2 ++ [58, 34] ++ P2 ++ [34, 59]) = some b ∧
      FixLine (([115, 58] ++ d1 ++ [58, 34] ++ P1 ++ [34, 59]) ++ T ++
        ([115, 58] ++ d2 ++ [58, 34] ++ P2 ++ [34, 59])) = some (a ++ T ++ b) := by
  obtain ⟨n1, ho1⟩ := fix_simple_field d1 P1 hd1 hdig1 hP1.1 hP1.2
  obtain ⟨n2, ho2⟩ := fix_simple_field d2 P2 hd2 hdig2 hP2.1 hP2.2
  have e1 := ho1 []
  have e2 := ho2 []
  have e3 := ho1 (T ++ ([115, 58] ++ d2 ++ [58, 34] ++ P2 ++ [34, 59]))
  simp only [List.append_nil, fix_nil] at e1 e2
  refine ⟨_, _, n1, n2, rfl, rfl, ?_, ?_, ?_⟩
  · rw [FixLine_eq_fix, e1]
  · rw [FixLine_eq_fix, e2]
  · rw [FixLine_eq_fix]
    have e4 := fix_gap T (58 :: (d2 ++ ([58, 34] ++ (P2 ++ [34, 59])))) hT.1
    simp only [List.append_assoc, List.cons_append, List.nil_append] at e2 e3 e4 ⊢
    rw [e3, e4, e2]

/-- C8 at the example of the claim: `s:3:"abc"; and s:7:"hello";` gives
`s:3:"abc"; and s:5:"hello";`. -/
theorem C8_fields_fixed_independently_witness :
    FixLine (ascii "s:3:\"abc\"; and s:7:\"hello\";") =
      some (ascii "s:3:\"abc\"; and s:5:\"hello\";") ∧
    ∃ (a b : Str) (n1 n2 : Nat),
      a = [115, 58] ++ decimal n1 ++ [58, 34] ++ ascii "abc" ++ [34, 59] ∧
      b = [115, 58] ++ decimal n2 ++ [58, 34] ++ ascii "hello" ++ [34, 59] ∧
      FixLine ([115, 58] ++ ascii "3" ++ [58, 34] ++ ascii "abc" ++ [34, 59]) = some a ∧
      FixLine ([115, 58] ++ ascii "7" ++ [58, 34] ++ ascii "hello" ++ [34, 59]) = some b ∧
      FixLine (([115, 58] ++ ascii "3" ++ [58, 34] ++ ascii "abc" ++ [34, 59]) ++
        ascii " and " ++
        ([115, 58] ++ ascii "7" ++ [58, 34] ++ ascii "hello" ++ [34, 59])) =
        some (a ++ ascii " and " ++ b) :=
  ⟨by decide,
    C8_fields_fixed_independently (ascii "3") (ascii "7") (ascii "abc") (ascii "hello")
      (ascii " and ") (by decide) (by decide) (by decide) (by decide) (by decide) (by decide)
      (by decide)⟩

/-- C9 (the recomputed length is a well-formed non-negative decimal): for every span the
locator yields, the escape tokens found in the payload take at most half of its bytes, so
the integer `Replace` formats is not negative; `%d` renders it as a non-empty sequence of
digits that denotes it, without a sign, and with a leading zero only for the value zero,
written `0`; and the text `Replace` returns is again matched by `lexer` from its first byte
to its last. -/
theorem C9_length_is_decimal (line m : Str) (hm : m ∈ FindAllString lexer line) :
    ∃ p1 p2 p3 p4 p5 out : Str,
      FindStringSubmatch re m = [m, p1, p2, p3, p4, p5] ∧
      2 * (FindAllString esc p4).length ≤ p4.length ∧
      (0 : Int) ≤ (p4.length : Int) - ((FindAllString esc p4).length : Int) ∧
      fmtInt ((p4.length : Int) - ((FindAllString esc p4).length : Int)) ≠ [] ∧
      (∀ c ∈ fmtInt ((p4.length : Int) - ((FindAllString esc p4).length : Int)),
        isDigit c = true) ∧
      ((fmtInt ((p4.length : Int) - ((FindAllString esc p4).length : Int))).head? = some 48 →
        fmtInt ((p4.length : Int) - ((FindAllString esc p4).length : Int)) = [48] ∧
          p4.length = (FindAllString esc p4).length) ∧
      (decimalValue (fmtInt ((p4.length : Int) - ((FindAllString esc p4).length : Int))) : Int) =
        (p4.length : Int) - ((FindAllString esc p4).length : Int) ∧
      Replace m = some out ∧
      out = p1 ++ fmtInt ((p4.length : Int) - ((FindAllString esc p4).length : Int)) ++ p3 ++
        p4 ++ p5 ∧
      lexer.matchAt out = some (out, noCaps, []) := by
  obtain ⟨ds, op, p, cl, rfl, hf⟩ := located_field line m hm
  have hle := countEscapes_le p
  have hspec := decimal_spec (p.length - countEscapes p)
  refine ⟨[115, 58], ds, op, p, cl, fixField op p cl,
    FindStringSubmatch_re_of_fieldAt _ ds op p cl [] (fieldAt_self ds op p cl hf), ?_, ?_, ?_,
    ?_, ?_, ?_, Replace_field ds op p cl hf, ?_, ?_⟩
  · rw [FindAllString_esc_length]; exact hle
  · rw [FindAllString_esc_length]; omega
  · rw [fmtInt_length]; exact hspec.1
  · rw [fmtInt_length]; exact hspec.2.1
  · rw [fmtInt_length, FindAllString_esc_length]
    intro h0
    have hz := hspec.2.2.1 h0
    have hp : p.length = countEscapes p := by omega
    refine ⟨?_, hp⟩
    rw [hz]
    decide
  · rw [fmtInt_length, FindAllString_esc_length, hspec.2.2.2]
    omega
  · rw [fmtInt_length]
    simp [fixField, fieldText]
  · rw [lexer_matchAt, show fixField op p cl =
      fieldText (decimal (p.length - countEscapes p)) op p cl from rfl,
      fieldAt_self _ op p cl (fixField_isField ds op p cl hf)]
    rfl

/-- C9 at the example of the specification. -/
theorem C9_length_is_decimal_witness :
    sampleField ∈ FindAllString lexer sampleLine ∧
    Replace sampleField = some sampleFixed ∧
    ∃ p1 p2 p3 p4 p5 out : Str,
      FindStringSubmatch re sampleField = [sampleField, p1, p2, p3, p4, p5] ∧
      2 * (FindAllString esc p4).length ≤ p4.length ∧
      (0 : Int) ≤ (p4.length : Int) - ((FindAllString esc p4).length : Int) ∧
      fmtInt ((p4.length : Int) - ((FindAllString esc p4).length : Int)) ≠ [] ∧
      (∀ c ∈ fmtInt ((p4.length : Int) - ((FindAllString esc p4).length : Int)),
        isDigit c = true) ∧
      ((fmtInt ((p4.length : Int) - ((FindAllString esc p4).length : Int))).head? = some 48 →
        fmtInt ((p4.length : Int) - ((FindAllString esc p4).length : Int)) = [48] ∧
          p4.length = (FindAllString esc p4).length) ∧
      (decimalValue (fmtInt ((p4.length : Int) - ((FindAllString esc p4).length : Int))) : Int) =
        (p4.length : Int) - ((FindAllString esc p4).length : Int) ∧
      Replace sampleField = some out ∧
      out = p1 ++ fmtInt ((p4.length : Int) - ((FindAllString esc p4).length : Int)) ++ p3 ++
        p4 ++ p5 ∧
      lexer.matchAt out = some (out, noCaps, []) :=
  ⟨by decide, by decide, C9_length_is_decimal sampleLine sampleField (by decide)⟩

theorem length_eq_charCount_add (s : Str) : s.length = charCount s + continuationCount s := by
  induction s with
  | nil => rfl
  | cons a t ih =>
    unfold charCount continuationCount at ih ⊢
    by_cases h : isContinuation a = true
    · simp only [List.filter_cons, h, Bool.not_true, Bool.false_eq_true, if_false, if_true,
        List.length_cons]
      omega
    · simp only [Bool.not_eq_true] at h
      simp only [List.filter_cons, h, Bool.not_false, Bool.false_eq_true, if_false, if_true,
        List.length_cons]
      omega

theorem charCount_ascii (s : Str) (h : ∀ b ∈ s, b < 128) : charCount s = s.length := by
  have h2 : continuationCount s = 0 := by
    unfold continuationCount
    rw [List.length_eq_zero, List.filter_eq_nil_iff]
    intro b hb
    have := h b hb
    simp only [isContinuation, Bool.and_eq_true, decide_eq_true_eq, not_and, not_lt]
    omega
  have := length_eq_charCount_add s
  omega

/-- C10, as stated, fails: the payload of `s:9:"é";` is one character and holds no escape
token, yet the length `Replace` writes is 2, the number of its bytes. -/
theorem C10_counterexample :
    accentField ∈ FindAllString lexer accentField ∧
    FindStringSubmatch re accentField =
      [accentField, [115, 58], [57], [58, 34], [195, 169], [34, 59]] ∧
    charCount [195, 169] = 1 ∧ countEscapes [195, 169] = 0 ∧
    Replace accentField = some ([115, 58] ++ [50] ++ [58, 34] ++ [195, 169] ++ [34, 59]) ∧
    Replace accentField ≠
      some ([115, 58] ++ decimal (charCount [195, 169] - countEscapes [195, 169]) ++
        [58, 34] ++ [195, 169] ++ [34, 59]) := by
  refine ⟨by decide, by decide, by decide, by decide, by decide, by decide⟩

/-- C10, amended: the length `Replace` writes for a located field counts the bytes of the
payload, not its characters: it is (the number of characters) plus (the number of
continuation bytes) minus (the number of escape tokens), so a character of several bytes
counts as many; for a payload of ASCII bytes only it is (the number of characters) minus
(the number of escape tokens). -/
theorem C10_length_counts_bytes (line m : Str) (hm : m ∈ FindAllString lexer line) :
    ∃ p2 p3 p4 p5 : Str,
      FindStringSubmatch re m = [m, [115, 58], p2, p3, p4, p5] ∧
      p4.length = charCount p4 + continuationCount p4 ∧
      Replace m =
        some ([115, 58] ++ decimal (charCount p4 + continuationCount p4 - countEscapes p4) ++
          p3 ++ p4 ++ p5) ∧
      ((∀ b ∈ p4, b < 128) →
        Replace m =
          some ([115, 58] ++ decimal (charCount p4 - countEscapes p4) ++ p3 ++ p4 ++ p5)) := by
  obtain ⟨ds, op, p, cl, rfl, hf⟩ := located_field line m hm
  have hr := Replace_field ds op p cl hf
  have hl := length_eq_charCount_add p
  refine ⟨ds, op, p, cl,
    FindStringSubmatch_re_of_fieldAt _ ds op p cl [] (fieldAt_self ds op p cl hf), hl, ?_, ?_⟩
  · rw [hr, ← hl]
    rfl
  · intro hascii
    rw [hr, charCount_ascii p hascii]
    rfl

/-- C10, amended, at the field `s:9:"é";`. -/
theorem C10_length_counts_bytes_witness :
    accentField ∈ FindAllString lexer accentField ∧
    Replace accentField = some [115, 58, 50, 58, 34, 195, 169, 34, 59] ∧
    ∃ p2 p3 p4 p5 : Str,
      FindStringSubmatch re accentField = [accentField, [115, 58], p2, p3, p4, p5] ∧
      p4.length = charCount p4 + continuationCount p4 ∧
      Replace accentField =
        some ([115, 58] ++ decimal (charCount p4 + continuationCount p4 - countEscapes p4) ++
          p3 ++ p4 ++ p5) ∧
      ((∀ b ∈ p4, b < 128) →
        Replace accentField =
          some ([115, 58] ++ decimal (charCount p4 - countEscapes p4) ++ p3 ++ p4 ++ p5)) :=
  ⟨by decide, by decide, C10_length_counts_bytes accentField accentField (by decide)⟩

/-- For an input in which every line ends in a newline, `processLines` writes the text
`FixLine` returns for each line, in the order of the input; `FixLine` fails for none. -/
theorem processLines_terminated (Ls : List Str)
    (hL : ∀ L ∈ Ls, ∃ b, L = b ++ [10] ∧ 10 ∉ b) :
    (∀ L ∈ Ls, (FixLine L).isSome = true) ∧
    processLines Ls.flatten = some ((Ls.map fun L => (FixLine L).getD []).flatten) := by
  refine ⟨fun L _ => by simp [FixLine_eq_fix], ?_⟩
  have h := processLines_spec Ls [] (by simp) hL
  rw [List.append_nil] at h
  rw [h]
  congr 2
  apply List.map_congr_left
  intro L _
  simp [FixLine_eq_fix]

/-- The lines `a` and `s:9:"abc";`, each ended by a newline, are written as `a` and
`s:3:"abc";`, each ended by a newline. -/
theorem processLines_terminated_witness :
    processLines [ascii "a\n", ascii "s:9:\"abc\";\n"].flatten =
      some (ascii "a\ns:3:\"abc\";\n") ∧
    (∀ L ∈ [ascii "a\n", ascii "s:9:\"abc\";\n"], (FixLine L).isSome = true) ∧
    processLines [ascii "a\n", ascii "s:9:\"abc\";\n"].flatten =
      some (([ascii "a\n", ascii "s:9:\"abc\";\n"].map fun L =>
        (FixLine L).getD []).flatten) :=
  ⟨by decide,
    processLines_terminated [ascii "a\n", ascii "s:9:\"abc\";\n"]
      (by
        intro L hL
        simp only [List.mem_cons, List.mem_singleton, List.not_mem_nil, or_false] at hL
        rcases hL with rfl | rfl
        · exact ⟨ascii "a", by decide, by decide⟩
        · exact ⟨ascii "s:9:\"abc\";", by decide, by decide⟩)⟩

end Serfix
